import Mathlib

set_option linter.unusedVariables false

/-!
Verification development for the upb layout engine (protobuf repository).

The only full function body present in the corpus is `upb_global_allocfunc`
(upb/mem/alloc.c); the remaining components (mini-table codec and builder,
wire codec, reflective accessors, def pool) appear in the corpus only as
header declarations, so they are modelled here from the specification
(spec.md sections 3, 4.2-4.5) and settled against those models.
-/

namespace Upb

/-! ## Base-128 variable-length integers

The compact layout encoding and the wire format both use a dense
variable-length integer alphabet; we model it as standard little-endian
base-128 varints (low 7 bits per byte, high bit = continuation). -/

/-- Fuel-bounded worker for `encodeVarint` (structural recursion keeps the
definition computable by the kernel; the fuel is never exhausted when it
starts at least at the value being encoded). -/
def encodeVarintFuel : Nat → Nat → List Nat
  | 0, n => [n]
  | fuel + 1, n =>
    if n < 128 then [n]
    else (n % 128 + 128) :: encodeVarintFuel fuel (n / 128)

/-- Encode a natural number as a little-endian base-128 varint. -/
def encodeVarint (n : Nat) : List Nat :=
  encodeVarintFuel n n

theorem encodeVarintFuel_irrel (n : Nat) :
    ∀ f1 f2, n ≤ f1 → n ≤ f2 → n < 128 ∨ 0 < n →
      encodeVarintFuel f1 n = encodeVarintFuel f2 n := by
  induction n using Nat.strong_induction_on with
  | _ n ih =>
    intro f1 f2 h1 h2 hcase
    by_cases hn : n < 128
    · cases f1 with
      | zero =>
        cases f2 with
        | zero => rfl
        | succ f2 => simp [encodeVarintFuel, hn]
      | succ f1 =>
        cases f2 with
        | zero => simp [encodeVarintFuel, hn]
        | succ f2 => simp [encodeVarintFuel, hn]
    · have hpos : 0 < n := by omega
      cases f1 with
      | zero => omega
      | succ f1 =>
        cases f2 with
        | zero => omega
        | succ f2 =>
          simp only [encodeVarintFuel, hn, if_false]
          have hlt : n / 128 < n := Nat.div_lt_self hpos (by norm_num)
          have hq1 : n / 128 ≤ f1 := by omega
          have hq2 : n / 128 ≤ f2 := by omega
          rw [ih (n / 128) hlt f1 f2 hq1 hq2 (by omega)]

/-- The defining unfolding of `encodeVarint`. -/
theorem encodeVarint_eq (n : Nat) :
    encodeVarint n = if n < 128 then [n]
      else (n % 128 + 128) :: encodeVarint (n / 128) := by
  unfold encodeVarint
  cases n with
  | zero => simp [encodeVarintFuel]
  | succ k =>
    by_cases hn : k + 1 < 128
    · simp [encodeVarintFuel, hn]
    · simp only [encodeVarintFuel, hn, if_false]
      congr 1
      exact encodeVarintFuel_irrel ((k + 1) / 128) k ((k + 1) / 128)
        (by omega) (le_refl _) (by omega)

/-- Read a varint from the head of a byte list; `none` on malformed or
truncated input. Returns the value and the unconsumed suffix. -/
def readVarint : List Nat → Option (Nat × List Nat)
  | [] => none
  | b :: rest =>
    if b < 128 then some (b, rest)
    else
      match readVarint rest with
      | none => none
      | some (n, rest1) => some (n * 128 + (b - 128), rest1)

theorem readVarint_encodeVarint (n : Nat) (rest : List Nat) :
    readVarint (encodeVarint n ++ rest) = some (n, rest) := by
  induction n using Nat.strong_induction_on with
  | _ n ih =>
    rw [encodeVarint_eq]
    by_cases h : n < 128
    · simp [h, readVarint]
    · have hpos : 0 < n := Nat.lt_of_lt_of_le (by norm_num) (Nat.le_of_not_lt h)
      have hdiv : n / 128 < n := Nat.div_lt_self hpos (by norm_num)
      simp only [h, if_false, List.cons_append, readVarint, List.append_eq]
      have hge : ¬ (n % 128 + 128 < 128) := by omega
      have heq : n / 128 * 128 + (n % 128 + 128 - 128) = n := by
        have := Nat.div_add_mod n 128
        omega
      simp only [hge, if_false]
      rw [ih (n / 128) hdiv]
      simp only [Option.some.injEq, Prod.mk.injEq]
      exact ⟨heq, trivial⟩

/-- A successful varint read strictly consumes input. -/
theorem readVarint_length {l : List Nat} {n : Nat} {rest : List Nat}
    (h : readVarint l = some (n, rest)) : rest.length < l.length := by
  induction l generalizing n rest with
  | nil => simp [readVarint] at h
  | cons b tl ih =>
    simp only [readVarint] at h
    by_cases hb : b < 128
    · simp only [hb, if_true, Option.some.injEq, Prod.mk.injEq] at h
      rw [← h.2]
      simp [List.length_cons]
    · simp only [hb, if_false] at h
      cases hrec : readVarint tl with
      | none => rw [hrec] at h; simp at h
      | some p =>
        rw [hrec] at h
        cases p with
        | mk m rest1 =>
          simp only [Option.some.injEq, Prod.mk.injEq] at h
          have := ih hrec
          rw [← h.2]
          simp only [List.length_cons]
          omega

/-- The suffix returned by a varint read is a true suffix of the input. -/
theorem readVarint_suffix {l : List Nat} {n : Nat} {rest : List Nat}
    (h : readVarint l = some (n, rest)) : rest.IsSuffix l := by
  induction l generalizing n rest with
  | nil => simp [readVarint] at h
  | cons b tl ih =>
    simp only [readVarint] at h
    by_cases hb : b < 128
    · simp only [hb, if_true, Option.some.injEq, Prod.mk.injEq] at h
      rw [← h.2]
      exact (List.suffix_cons b tl)
    · simp only [hb, if_false] at h
      cases hrec : readVarint tl with
      | none => rw [hrec] at h; simp at h
      | some p =>
        rw [hrec] at h
        cases p with
        | mk m rest1 =>
          simp only [Option.some.injEq, Prod.mk.injEq] at h
          rw [← h.2]
          exact (ih hrec).trans (List.suffix_cons b tl)

/-! ## The global allocation function (upb/mem/alloc.c)

`upb_global_allocfunc` is the one full function body in the corpus.  The C
source reads:

    static void* upb_global_allocfunc(upb_alloc* alloc, void* ptr,
                                      size_t oldsize, size_t size) {
      UPB_UNUSED(alloc);
      UPB_UNUSED(oldsize);
      if (size == 0) {
        free(ptr);
        return NULL;
      } else {
        return realloc(ptr, size);
      }
    }

We embed it over an abstract model of the C library allocator: a heap state
`H`, a `freeFn` that releases a pointer, and a `reallocFn` returning the new
heap and an optional pointer (`none` models a NULL return, i.e. allocator
failure). Pointers are modelled as `Option Nat` (`none` = NULL). -/

/-- Abstract model of the C library allocator (`free` / `realloc`). -/
structure CAllocator (H : Type) where
  freeFn : H → Option Nat → H
  reallocFn : H → Option Nat → Nat → H × Option Nat

/-- Shallow embedding of `upb_global_allocfunc`.  `alloc` and `oldsize` are
accepted (matching the C signature) and dropped (matching `UPB_UNUSED`). -/
def upb_global_allocfunc {H α : Type} (A : CAllocator H) (h : H) (alloc : α)
    (ptr : Option Nat) (oldsize : Nat) (size : Nat) : H × Option Nat :=
  if size = 0 then (A.freeFn h ptr, none)
  else A.reallocFn h ptr size

/-! ## Mini-Table data model

Modelled from the spec: the Mini-Table structures themselves are not in the
corpus (only header declarations referencing `upb_MiniTable` are), so the data
model follows spec section 3 ("Mini-Table", "Mini-Table-Field"). -/

/-- Presence classification of one field: always-present (no tracking),
explicit-presence bit index, or oneof case slot index with its case tag. -/
inductive PresenceKind where
  | always : PresenceKind
  | hasbit (idx : Nat) : PresenceKind
  | inOneof (slot : Nat) (tag : Nat) : PresenceKind
deriving DecidableEq

/-- Modelled from the spec: one field's number, type tag, byte offset within
the instance, and presence indicator (spec section 3, Mini-Table-Field). -/
structure MTField where
  number : Nat
  ftype : Nat
  offset : Nat
  presence : PresenceKind
deriving DecidableEq

/-- Modelled from the spec: total instance size, presence-word count, oneof
case-slot count, and the field sequence (spec section 3, Mini-Table). -/
structure MiniTable where
  size : Nat
  hasbitWords : Nat
  oneofSlots : Nat
  fields : List MTField
deriving DecidableEq

/-- Storage bytes for a value-type code.  Codes: 0 = bool (1 byte);
1-4 = int32/uint32/enum/float (4 bytes); anything else (int64, uint64,
double, and the arena-indirect string/bytes/message/repeated/map references)
takes 8 bytes. -/
def typeSize (t : Nat) : Nat :=
  if t = 0 then 1 else if t ≤ 4 then 4 else 8

/-- Natural alignment of a value-type code (equal to its size here, since
all sizes are powers of two). -/
def alignOf (t : Nat) : Nat := typeSize t

/-- Round `c` up to the next multiple of `a` (identity when `a = 0`). -/
def alignUp (c a : Nat) : Nat :=
  if a = 0 then c else (c + a - 1) / a * a

theorem le_alignUp (c a : Nat) : c ≤ alignUp c a := by
  unfold alignUp
  by_cases h : a = 0
  · simp [h]
  · simp only [h, if_false]
    have hpos : 0 < a := Nat.pos_of_ne_zero h
    have hlt : c + a - 1 < (c + a - 1) / a * a + a := Nat.lt_div_mul_add hpos
    omega

/-- Maximum of a list of naturals (0 for the empty list). -/
def natMax (l : List Nat) : Nat := l.foldr max 0

theorem le_natMax {a : Nat} {l : List Nat} (h : a ∈ l) : a ≤ natMax l := by
  induction l with
  | nil => cases h
  | cons b tl ih =>
    cases h with
    | head => exact le_max_left _ _
    | tail _ hmem => exact le_trans (ih hmem) (le_max_right _ _)

/-! ## Compact layout encoding (mini-descriptor codec)

Modelled from the spec: the codec bodies are not in the corpus.  Spec
section 3 ("Compact Layout Encoding") and 4.2 ("Codec") describe a
self-delimiting byte string serializing the field list (number, type,
offset-or-index, presence class) in a dense variable-length alphabet; we
realize the alphabet as varints.  Decoding validates: no trailing bytes,
declared total size consistent with every offset + field size, and every
presence/oneof index within the declared bit/slot budget; it fails with
`MalformedLayout` on any violation. -/

inductive MalformedLayout where
  | mk : MalformedLayout
deriving DecidableEq

def encodePresence : PresenceKind → List Nat
  | .always => [0]
  | .hasbit i => 1 :: encodeVarint i
  | .inOneof s t => 2 :: (encodeVarint s ++ encodeVarint t)

def encodeMTField (f : MTField) : List Nat :=
  encodeVarint f.number ++ encodeVarint f.ftype ++ encodeVarint f.offset ++
    encodePresence f.presence

def encodeMiniTable (T : MiniTable) : List Nat :=
  encodeVarint T.size ++ encodeVarint T.hasbitWords ++
    encodeVarint T.oneofSlots ++ encodeVarint T.fields.length ++
    (T.fields.map encodeMTField).flatten

def readPresence (l : List Nat) : Option (PresenceKind × List Nat) :=
  match readVarint l with
  | none => none
  | some (0, rest) => some (.always, rest)
  | some (1, rest) =>
    match readVarint rest with
    | none => none
    | some (i, rest1) => some (.hasbit i, rest1)
  | some (2, rest) =>
    match readVarint rest with
    | none => none
    | some (s, rest1) =>
      match readVarint rest1 with
      | none => none
      | some (t, rest2) => some (.inOneof s t, rest2)
  | some _ => none

def readMTField (l : List Nat) : Option (MTField × List Nat) :=
  match readVarint l with
  | none => none
  | some (num, l1) =>
    match readVarint l1 with
    | none => none
    | some (ty, l2) =>
      match readVarint l2 with
      | none => none
      | some (off, l3) =>
        match readPresence l3 with
        | none => none
        | some (p, l4) => some (⟨num, ty, off, p⟩, l4)

def readMTFields : Nat → List Nat → Option (List MTField × List Nat)
  | 0, l => some ([], l)
  | n + 1, l =>
    match readMTField l with
    | none => none
    | some (f, l1) =>
      match readMTFields n l1 with
      | none => none
      | some (fs, l2) => some (f :: fs, l2)

/-- One decoded field passes validation: its presence index is inside the
declared bit/slot budget and its storage lies inside the declared size. -/
def fieldOK (size words slots : Nat) (f : MTField) : Bool :=
  (match f.presence with
   | .always => true
   | .hasbit i => decide (i < 32 * words)
   | .inOneof s _ => decide (s < slots)) &&
  decide (f.offset + typeSize f.ftype ≤ size)

/-- Structural well-formedness checked by the decoder. -/
def wfMiniTable (T : MiniTable) : Bool :=
  T.fields.all (fieldOK T.size T.hasbitWords T.oneofSlots)

/-- Decode a compact layout encoding.  Pure function of the byte list (the
declared byte span); validates structure and fails with `MalformedLayout`
on truncation, trailing bytes, or any budget/size violation. -/
def decodeMiniTable (l : List Nat) : Except MalformedLayout MiniTable :=
  match readVarint l with
  | none => .error .mk
  | some (size, l1) =>
    match readVarint l1 with
    | none => .error .mk
    | some (words, l2) =>
      match readVarint l2 with
      | none => .error .mk
      | some (slots, l3) =>
        match readVarint l3 with
        | none => .error .mk
        | some (count, l4) =>
          match readMTFields count l4 with
          | none => .error .mk
          | some (fs, l5) =>
            if l5.isEmpty && fs.all (fieldOK size words slots) then
              .ok ⟨size, words, slots, fs⟩
            else .error .mk

/-- Decode applied to an abstract byte memory restricted to a declared
length: only addresses below `len` are presented to the decoder. -/
def decodeMiniTableMem (mem : Nat → Nat) (len : Nat) :
    Except MalformedLayout MiniTable :=
  decodeMiniTable (List.ofFn (fun i : Fin len => mem i.val))

theorem readPresence_encodePresence (p : PresenceKind) (rest : List Nat) :
    readPresence (encodePresence p ++ rest) = some (p, rest) := by
  cases p with
  | always =>
    simp [encodePresence, readPresence, readVarint]
  | hasbit i =>
    simp only [encodePresence, List.cons_append, readPresence, readVarint]
    norm_num [readVarint_encodeVarint]
  | inOneof s t =>
    simp only [encodePresence, List.cons_append, List.append_assoc,
      readPresence, readVarint]
    norm_num [readVarint_encodeVarint]

theorem readMTField_encodeMTField (f : MTField) (rest : List Nat) :
    readMTField (encodeMTField f ++ rest) = some (f, rest) := by
  simp only [encodeMTField, List.append_assoc, readMTField,
    readVarint_encodeVarint, readPresence_encodePresence]

theorem readMTFields_encode (fs : List MTField) (rest : List Nat) :
    readMTFields fs.length ((fs.map encodeMTField).flatten ++ rest) =
      some (fs, rest) := by
  induction fs with
  | nil => simp [readMTFields]
  | cons f tl ih =>
    simp only [List.map_cons, List.flatten_cons, List.length_cons,
      readMTFields, List.append_assoc, readMTField_encodeMTField, ih]

/-- Round trip of the compact layout codec on well-formed tables. -/
theorem decodeMiniTable_encodeMiniTable (T : MiniTable)
    (h : wfMiniTable T = true) :
    decodeMiniTable (encodeMiniTable T) = .ok T := by
  have hfs := readMTFields_encode T.fields []
  rw [List.append_nil] at hfs
  simp only [encodeMiniTable, decodeMiniTable, List.append_assoc,
    readVarint_encodeVarint, hfs]
  unfold wfMiniTable at h
  simp [h]

/-- A successful decode yields only well-formed tables: every structural
violation is rejected. -/
theorem decodeMiniTable_ok_wf {l : List Nat} {T : MiniTable}
    (h : decodeMiniTable l = .ok T) : wfMiniTable T = true := by
  unfold decodeMiniTable at h
  rcases hv1 : readVarint l with _ | ⟨size, l1⟩ <;> simp only [hv1] at h
  · exact Except.noConfusion h
  rcases hv2 : readVarint l1 with _ | ⟨words, l2⟩ <;> simp only [hv2] at h
  · exact Except.noConfusion h
  rcases hv3 : readVarint l2 with _ | ⟨slots, l3⟩ <;> simp only [hv3] at h
  · exact Except.noConfusion h
  rcases hv4 : readVarint l3 with _ | ⟨count, l4⟩ <;> simp only [hv4] at h
  · exact Except.noConfusion h
  rcases hv5 : readMTFields count l4 with _ | ⟨fs, l5⟩ <;> simp only [hv5] at h
  · exact Except.noConfusion h
  split at h
  · rename_i hcond
    cases h
    simp only [Bool.and_eq_true] at hcond
    simpa [wfMiniTable] using hcond.2
  · exact Except.noConfusion h

/-! ## Mini-Table Builder

Modelled from the spec: the builder body is not in the corpus.  Spec
section 4.2: from a field list (number, type, optional flag, oneof
membership) it computes the presence-bit assignment (one bit per optional
non-oneof field, in field-number order, packed into whole words), the oneof
case-slot assignment (slot width = widest alternative, shared storage,
discriminant = field number), and byte offsets at natural alignment; the
finished table is sorted by field number.  It fails with `LayoutError` on
duplicate field numbers or when the total size exceeds the implementation
maximum. -/

/-- Schema-side description of one field handed to the builder. -/
structure FieldSpec where
  number : Nat
  ftype : Nat
  isOpt : Bool
  oneofIdx : Option Nat
deriving DecidableEq

inductive LayoutError where
  | duplicateFieldNumber : LayoutError
  | sizeOverflow : LayoutError
deriving DecidableEq

/-- Implementation maximum for a table's total instance size (keeps offsets
representable in the chosen offset width). -/
def maxTableSize : Nat := 65536

/-- Sequentially allocate storage regions: each entry is (size, align);
returns the assigned offsets and the final cursor. -/
def allocSeq : Nat → List (Nat × Nat) → List Nat × Nat
  | c, [] => ([], c)
  | c, (sz, al) :: rest =>
    let off := alignUp c al
    let rec1 := allocSeq (off + sz) rest
    (off :: rec1.1, rec1.2)

theorem allocSeq_length (c : Nat) (l : List (Nat × Nat)) :
    (allocSeq c l).1.length = l.length := by
  induction l generalizing c with
  | nil => rfl
  | cons p tl ih => cases p with | mk sz al => simp [allocSeq, ih]

theorem allocSeq_cursor_le (c : Nat) (l : List (Nat × Nat)) :
    c ≤ (allocSeq c l).2 := by
  induction l generalizing c with
  | nil => exact le_refl c
  | cons p tl ih =>
    cases p with
    | mk sz al =>
      calc c ≤ alignUp c al := le_alignUp c al
        _ ≤ alignUp c al + sz := Nat.le_add_right _ _
        _ ≤ (allocSeq (alignUp c al + sz) tl).2 := ih _
        _ = (allocSeq c ((sz, al) :: tl)).2 := rfl

theorem allocSeq_fits (c : Nat) (l : List (Nat × Nat)) (i : Nat)
    (hi : i < l.length) :
    (allocSeq c l).1.getD i 0 + ((l.getD i (0, 0)).1) ≤ (allocSeq c l).2 := by
  induction l generalizing c i with
  | nil => cases hi
  | cons p tl ih =>
    cases p with
    | mk sz al =>
      cases i with
      | zero =>
        simp only [allocSeq, List.getD_cons_zero]
        exact allocSeq_cursor_le _ _
      | succ j =>
        simp only [allocSeq, List.getD_cons_succ]
        exact ih _ j (by simpa using Nat.lt_of_succ_lt_succ hi)

/-- Insert a field spec into a number-sorted list. -/
def insertByNum (s : FieldSpec) : List FieldSpec → List FieldSpec
  | [] => [s]
  | t :: tl => if s.number ≤ t.number then s :: t :: tl else t :: insertByNum s tl

/-- The builder's field ordering: ascending by field number
(insertion sort). -/
def sortedOf (specs : List FieldSpec) : List FieldSpec :=
  specs.foldr insertByNum []

theorem insertByNum_perm (s : FieldSpec) (l : List FieldSpec) :
    (insertByNum s l).Perm (s :: l) := by
  induction l with
  | nil => exact List.Perm.refl _
  | cons t tl ih =>
    unfold insertByNum
    split_ifs
    · exact List.Perm.refl _
    · exact (List.Perm.cons t ih).trans (List.Perm.swap s t tl)

theorem sortedOf_perm (specs : List FieldSpec) :
    (sortedOf specs).Perm specs := by
  induction specs with
  | nil => exact List.Perm.refl _
  | cons s tl ih =>
    unfold sortedOf
    exact (insertByNum_perm s _).trans (List.Perm.cons s ih)

/-- Optional non-oneof fields in field-number order (presence-bit order). -/
def optsOf (specs : List FieldSpec) : List FieldSpec :=
  (sortedOf specs).filter (fun s => s.oneofIdx.isNone && s.isOpt)

/-- Count of whole 32-bit presence words. -/
def wordsOf (specs : List FieldSpec) : Nat := ((optsOf specs).length + 31) / 32

/-- The distinct oneof indices appearing in the field list. -/
def idsOf (specs : List FieldSpec) : List Nat :=
  ((sortedOf specs).filterMap (fun s => s.oneofIdx)).dedup

def slotsOf (specs : List FieldSpec) : Nat := (idsOf specs).length

/-- Storage following the presence words and the (4-byte) case slots. -/
def baseOf (specs : List FieldSpec) : Nat :=
  4 * wordsOf specs + 4 * slotsOf specs

/-- The members of one oneof group. -/
def groupMembers (id : Nat) (specs : List FieldSpec) : List FieldSpec :=
  (sortedOf specs).filter (fun s => s.oneofIdx = some id)

/-- A oneof group's shared storage is sized to the widest alternative. -/
def groupSizeOf (id : Nat) (specs : List FieldSpec) : Nat :=
  natMax ((groupMembers id specs).map (fun s => typeSize s.ftype))

def groupAlignOf (id : Nat) (specs : List FieldSpec) : Nat :=
  max 1 (natMax ((groupMembers id specs).map (fun s => alignOf s.ftype)))

/-- Offsets of the oneof groups' shared storage regions. -/
def groupAlloc (specs : List FieldSpec) : List Nat × Nat :=
  allocSeq (baseOf specs)
    ((idsOf specs).map (fun id => (groupSizeOf id specs, groupAlignOf id specs)))

/-- Non-oneof fields in field-number order. -/
def plainsOf (specs : List FieldSpec) : List FieldSpec :=
  (sortedOf specs).filter (fun s => s.oneofIdx.isNone)

/-- Offsets of the non-oneof fields, laid out after the oneof storage. -/
def plainAlloc (specs : List FieldSpec) : List Nat × Nat :=
  allocSeq (groupAlloc specs).2
    ((plainsOf specs).map (fun s => (typeSize s.ftype, alignOf s.ftype)))

def tableSizeOf (specs : List FieldSpec) : Nat := (plainAlloc specs).2

/-- Build one finished Mini-Table-Field for a spec entry. -/
def mkMTField (specs : List FieldSpec) (s : FieldSpec) : MTField :=
  match s.oneofIdx with
  | some id =>
    { number := s.number, ftype := s.ftype,
      offset := (groupAlloc specs).1.getD ((idsOf specs).indexOf id) 0,
      presence := .inOneof ((idsOf specs).indexOf id) s.number }
  | none =>
    { number := s.number, ftype := s.ftype,
      offset := (plainAlloc specs).1.getD ((plainsOf specs).indexOf s) 0,
      presence :=
        if s.isOpt then .hasbit ((optsOf specs).indexOf s) else .always }

/-- The finished table (before the builder's error checks). -/
def buildTable (specs : List FieldSpec) : MiniTable :=
  { size := tableSizeOf specs
    hasbitWords := wordsOf specs
    oneofSlots := slotsOf specs
    fields := (sortedOf specs).map (mkMTField specs) }

/-- Modelled from the spec: the Mini-Table Builder finish step (spec
section 4.2).  Fails with `LayoutError` on colliding field numbers or
when the total instance size exceeds the implementation maximum. -/
def buildMiniTable (specs : List FieldSpec) :
    Except LayoutError MiniTable :=
  if (specs.map (fun s => s.number)).Nodup then
    if tableSizeOf specs ≤ maxTableSize then .ok (buildTable specs)
    else .error .sizeOverflow
  else .error .duplicateFieldNumber

theorem le_32_ceil (n : Nat) : n ≤ 32 * ((n + 31) / 32) := by
  have h : n + 31 < (n + 31) / 32 * 32 + 32 :=
    Nat.lt_div_mul_add (by norm_num)
  omega

theorem groupAlloc_le_tableSize (specs : List FieldSpec) :
    (groupAlloc specs).2 ≤ tableSizeOf specs := by
  unfold tableSizeOf plainAlloc
  exact allocSeq_cursor_le _ _

/-- Every field the builder emits passes the decoder's validation. -/
theorem fieldOK_mkMTField (specs : List FieldSpec) (s : FieldSpec)
    (hs : s ∈ sortedOf specs) :
    fieldOK (tableSizeOf specs) (wordsOf specs) (slotsOf specs)
      (mkMTField specs s) = true := by
  cases hid : s.oneofIdx with
  | some id =>
    have hidmem : id ∈ idsOf specs := by
      unfold idsOf
      rw [List.mem_dedup]
      exact List.mem_filterMap.mpr ⟨s, hs, hid⟩
    have hik : (idsOf specs).indexOf id < (idsOf specs).length :=
      List.indexOf_lt_length.mpr hidmem
    have hsm : s ∈ groupMembers id specs := by
      unfold groupMembers
      rw [List.mem_filter]
      exact ⟨hs, by simp [hid]⟩
    have hts : typeSize s.ftype ≤ groupSizeOf id specs :=
      le_natMax (List.mem_map.mpr ⟨s, hsm, rfl⟩)
    have hlen :
        (((idsOf specs).map
          (fun j => (groupSizeOf j specs, groupAlignOf j specs))).length) =
        (idsOf specs).length := List.length_map _ _
    have hfit := allocSeq_fits (baseOf specs)
      ((idsOf specs).map (fun j => (groupSizeOf j specs, groupAlignOf j specs)))
      ((idsOf specs).indexOf id) (by rw [hlen]; exact hik)
    have hgd :
        ((((idsOf specs).map
          (fun j => (groupSizeOf j specs, groupAlignOf j specs))).getD
            ((idsOf specs).indexOf id) (0, 0)).1) = groupSizeOf id specs := by
      rw [List.getD_eq_getElem _ _ (by rw [hlen]; exact hik)]
      rw [List.getElem_map]
      rw [List.getElem_indexOf]
    rw [hgd] at hfit
    have h2 := groupAlloc_le_tableSize specs
    have hfit2 : (groupAlloc specs).1.getD ((idsOf specs).indexOf id) 0 +
        groupSizeOf id specs ≤ (groupAlloc specs).2 := by
      unfold groupAlloc
      exact hfit
    have hchain :
        (groupAlloc specs).1.getD ((idsOf specs).indexOf id) 0 +
          typeSize s.ftype ≤ tableSizeOf specs := by
      omega
    simp only [mkMTField, hid, fieldOK, Bool.and_eq_true, decide_eq_true_eq]
    exact ⟨by simpa [slotsOf] using hik, hchain⟩
  | none =>
    have hpm : s ∈ plainsOf specs := by
      unfold plainsOf
      rw [List.mem_filter]
      exact ⟨hs, by simp [hid]⟩
    have hpk : (plainsOf specs).indexOf s < (plainsOf specs).length :=
      List.indexOf_lt_length.mpr hpm
    have hlen :
        (((plainsOf specs).map
          (fun t => (typeSize t.ftype, alignOf t.ftype))).length) =
        (plainsOf specs).length := List.length_map _ _
    have hfit := allocSeq_fits (groupAlloc specs).2
      ((plainsOf specs).map (fun t => (typeSize t.ftype, alignOf t.ftype)))
      ((plainsOf specs).indexOf s) (by rw [hlen]; exact hpk)
    have hgd :
        ((((plainsOf specs).map
          (fun t => (typeSize t.ftype, alignOf t.ftype))).getD
            ((plainsOf specs).indexOf s) (0, 0)).1) = typeSize s.ftype := by
      rw [List.getD_eq_getElem _ _ (by rw [hlen]; exact hpk)]
      rw [List.getElem_map]
      rw [List.getElem_indexOf]
    rw [hgd] at hfit
    have hchain :
        (plainAlloc specs).1.getD ((plainsOf specs).indexOf s) 0 +
          typeSize s.ftype ≤ tableSizeOf specs := by
      unfold plainAlloc tableSizeOf plainAlloc
      exact hfit
    cases hopt : s.isOpt with
    | true =>
      have hom : s ∈ optsOf specs := by
        unfold optsOf
        rw [List.mem_filter]
        exact ⟨hs, by simp [hid, hopt]⟩
      have hok : (optsOf specs).indexOf s < (optsOf specs).length :=
        List.indexOf_lt_length.mpr hom
      have hbits : (optsOf specs).indexOf s < 32 * wordsOf specs := by
        have := le_32_ceil (optsOf specs).length
        unfold wordsOf
        omega
      have hf : mkMTField specs s =
          { number := s.number, ftype := s.ftype,
            offset := (plainAlloc specs).1.getD ((plainsOf specs).indexOf s) 0,
            presence := .hasbit ((optsOf specs).indexOf s) } := by
        simp [mkMTField, hid, hopt]
      rw [hf]
      simp only [fieldOK, Bool.and_eq_true, decide_eq_true_eq]
      exact ⟨hbits, hchain⟩
    | false =>
      have hf : mkMTField specs s =
          { number := s.number, ftype := s.ftype,
            offset := (plainAlloc specs).1.getD ((plainsOf specs).indexOf s) 0,
            presence := .always } := by
        simp [mkMTField, hid, hopt]
      rw [hf]
      simp only [fieldOK, Bool.and_eq_true, decide_eq_true_eq]
      exact ⟨trivial, hchain⟩

/-- The builder only produces tables the decoder accepts as well-formed. -/
theorem wfMiniTable_buildTable (specs : List FieldSpec) :
    wfMiniTable (buildTable specs) = true := by
  unfold wfMiniTable buildTable
  simp only [List.all_eq_true]
  intro f hf
  simp only [List.mem_map] at hf
  obtain ⟨s, hs, rfl⟩ := hf
  exact fieldOK_mkMTField specs s hs

/-! ## Wire Codec

Modelled from the spec: the wire encoder/decoder bodies are not in the
corpus.  Spec section 4.5 and 6: tag = (field_number << 3) | wire_type with
wire_type in {0 = varint, 1 = fixed64, 2 = length-delimited, 5 = fixed32};
encode iterates present fields in ascending number order then appends the
stored unrecognized-byte span verbatim; decode reads tag/value pairs until
input is exhausted, writes known fields via set, appends raw bytes of
unknown field numbers to the unrecognized span, and fails with `ParseError`
(carrying the byte offset of the failure) on malformed varints, truncated
payloads, or tag/wire-type mismatches. -/

/-- A decoded wire-format value. -/
inductive WireValue where
  | vint (n : Nat)
  | f64 (n : Nat)
  | ld (payload : List Nat)
  | f32 (n : Nat)
deriving DecidableEq

/-- The wire-type tag bits for a value. -/
def wireTypeOf : WireValue → Nat
  | .vint _ => 0
  | .f64 _ => 1
  | .ld _ => 2
  | .f32 _ => 5

/-- Field kind recorded in the layout table driving the decoder. -/
inductive WKind where
  | kVarint : WKind
  | kFix64 : WKind
  | kLd : WKind
  | kFix32 : WKind
deriving DecidableEq

def kindOf : WireValue → WKind
  | .vint _ => .kVarint
  | .f64 _ => .kFix64
  | .ld _ => .kLd
  | .f32 _ => .kFix32

/-- The decoder's view of a Mini-Table: field number to expected kind. -/
structure WireTable where
  entries : List (Nat × WKind)
deriving DecidableEq

def tblLookup (tbl : WireTable) (n : Nat) : Option WKind :=
  (tbl.entries.find? (fun e => e.1 = n)).map (fun e => e.2)

/-- Fixed-width little-endian encoding on `k` bytes. -/
def encodeFixed : Nat → Nat → List Nat
  | 0, _ => []
  | k + 1, n => (n % 256) :: encodeFixed k (n / 256)

def readFixed : Nat → List Nat → Option (Nat × List Nat)
  | 0, l => some (0, l)
  | _ + 1, [] => none
  | k + 1, b :: rest =>
    (readFixed k rest).map (fun p => (p.1 * 256 + b, p.2))

/-- Value bounds under which the fixed-width encodings are faithful. -/
def wfWireValue : WireValue → Bool
  | .f64 n => decide (n < 256 ^ 8)
  | .f32 n => decide (n < 256 ^ 4)
  | _ => true

def encodeWireValue : WireValue → List Nat
  | .vint n => encodeVarint n
  | .f64 n => encodeFixed 8 n
  | .ld p => encodeVarint p.length ++ p
  | .f32 n => encodeFixed 4 n

/-- Emit one field: its tag varint then its payload. -/
def encodeField (f : Nat × WireValue) : List Nat :=
  encodeVarint (f.1 * 8 + wireTypeOf f.2) ++ encodeWireValue f.2

def encodeFields (fs : List (Nat × WireValue)) : List Nat :=
  (fs.map encodeField).flatten

/-- Modelled from the spec: a Generic Message as seen by the wire codec —
its present fields (in ascending field-number order) and the append-only
unrecognized-byte span (spec section 3, Generic Message instance). -/
structure WMessage where
  fields : List (Nat × WireValue)
  unknown : List Nat
deriving DecidableEq

/-- Encode: present fields in order, then the unknown span verbatim. -/
def wireEncode (m : WMessage) : List Nat :=
  encodeFields m.fields ++ m.unknown

/-- Observational read used by the round-trip law. -/
def wGet (m : WMessage) (n : Nat) : Option WireValue :=
  (m.fields.find? (fun e => e.1 = n)).map (fun e => e.2)

def wHas (m : WMessage) (n : Nat) : Bool :=
  (m.fields.find? (fun e => e.1 = n)).isSome

/-- Singular-field write: overwrite if present, else append. -/
def setWField (m : WMessage) (n : Nat) (v : WireValue) : WMessage :=
  if (m.fields.find? (fun e => e.1 = n)).isSome then
    { m with fields := m.fields.map (fun e => if e.1 = n then (n, v) else e) }
  else { m with fields := m.fields ++ [(n, v)] }

def appendUnknown (m : WMessage) (bytes : List Nat) : WMessage :=
  { m with unknown := m.unknown ++ bytes }

/-- Wire decode failure, carrying the byte offset of the failure. -/
structure ParseError where
  offset : Nat
deriving DecidableEq

/-- Read one payload according to the wire type bits. -/
def readPayload (wt : Nat) (l : List Nat) : Option (WireValue × List Nat) :=
  if wt = 0 then (readVarint l).map (fun p => (.vint p.1, p.2))
  else if wt = 1 then (readFixed 8 l).map (fun p => (.f64 p.1, p.2))
  else if wt = 2 then
    match readVarint l with
    | none => none
    | some (len, rest) =>
      if len ≤ rest.length then some (.ld (rest.take len), rest.drop len)
      else none
  else if wt = 5 then (readFixed 4 l).map (fun p => (.f32 p.1, p.2))
  else none

theorem readFixed_length_le {k : Nat} {l r : List Nat} {n : Nat}
    (h : readFixed k l = some (n, r)) : r.length ≤ l.length := by
  induction k generalizing l r n with
  | zero =>
    simp only [readFixed, Option.some.injEq, Prod.mk.injEq] at h
    rw [← h.2]
  | succ k ih =>
    cases l with
    | nil => simp [readFixed] at h
    | cons b tl =>
      simp only [readFixed] at h
      cases hrec : readFixed k tl with
      | none => rw [hrec] at h; simp at h
      | some p =>
        rw [hrec] at h
        simp only [Option.map_some', Option.some.injEq, Prod.mk.injEq] at h
        have := ih (n := p.1) (r := p.2) (by rw [hrec])
        rw [← h.2]
        simp only [List.length_cons]
        omega

theorem readPayload_length_le {wt : Nat} {l r : List Nat} {v : WireValue}
    (h : readPayload wt l = some (v, r)) : r.length ≤ l.length := by
  unfold readPayload at h
  split_ifs at h
  · cases hv : readVarint l with
    | none => rw [hv] at h; simp at h
    | some p =>
      rw [hv] at h
      simp only [Option.map_some', Option.some.injEq, Prod.mk.injEq] at h
      have hv2 : readVarint l = some (p.1, p.2) := by rw [hv]
      have := readVarint_length hv2
      rw [← h.2]
      omega
  · cases hv : readFixed 8 l with
    | none => rw [hv] at h; simp at h
    | some p =>
      rw [hv] at h
      simp only [Option.map_some', Option.some.injEq, Prod.mk.injEq] at h
      have := readFixed_length_le (k := 8) (n := p.1) (r := p.2) (by rw [hv])
      rw [← h.2]
      omega
  · cases hv : readVarint l with
    | none => rw [hv] at h; simp at h
    | some p =>
      rw [hv] at h
      cases p with
      | mk len rest =>
        simp only at h
        split_ifs at h with hlen
        · simp only [Option.some.injEq, Prod.mk.injEq] at h
          have hv2 : readVarint l = some (len, rest) := by rw [hv]
          have h1 := readVarint_length hv2
          rw [← h.2]
          simp only [List.length_drop]
          omega
  · cases hv : readFixed 4 l with
    | none => rw [hv] at h; simp at h
    | some p =>
      rw [hv] at h
      simp only [Option.map_some', Option.some.injEq, Prod.mk.injEq] at h
      have := readFixed_length_le (k := 4) (n := p.1) (r := p.2) (by rw [hv])
      rw [← h.2]
      omega

theorem encodeVarint_ne_nil (n : Nat) : encodeVarint n ≠ [] := by
  rw [encodeVarint_eq]
  split_ifs <;> simp

theorem readFixed_encodeFixed (k : Nat) :
    ∀ (n : Nat), n < 256 ^ k →
      ∀ (rest : List Nat), readFixed k (encodeFixed k n ++ rest) = some (n, rest) := by
  induction k with
  | zero =>
    intro n hn rest
    interval_cases n
    simp [encodeFixed, readFixed]
  | succ k ih =>
    intro n hn rest
    have hq : n / 256 < 256 ^ k := by
      rw [Nat.div_lt_iff_lt_mul (by norm_num)]
      calc n < 256 ^ (k + 1) := hn
        _ = 256 ^ k * 256 := by rw [pow_succ]
    have heq : n / 256 * 256 + n % 256 = n := by
      have := Nat.div_add_mod n 256
      omega
    simp only [encodeFixed, List.cons_append, readFixed, List.append_eq]
    rw [ih (n / 256) hq rest]
    simp only [Option.map_some', Option.some.injEq, Prod.mk.injEq]
    exact ⟨heq, trivial⟩

theorem wireTypeOf_lt (v : WireValue) : wireTypeOf v < 8 := by
  cases v <;> simp [wireTypeOf]

/-- Parsing the payload of a well-formed encoded value recovers it. -/
theorem readPayload_encodeWireValue (v : WireValue) (rest : List Nat)
    (hwf : wfWireValue v = true) :
    readPayload (wireTypeOf v) (encodeWireValue v ++ rest) = some (v, rest) := by
  cases v with
  | vint n =>
    simp [wireTypeOf, encodeWireValue, readPayload, readVarint_encodeVarint]
  | f64 n =>
    simp only [wfWireValue, decide_eq_true_eq] at hwf
    simp [wireTypeOf, encodeWireValue, readPayload,
      readFixed_encodeFixed 8 n hwf rest]
  | ld p =>
    simp only [wireTypeOf, encodeWireValue, readPayload, List.append_assoc,
      readVarint_encodeVarint]
    norm_num [List.take_left, List.drop_left]
  | f32 n =>
    simp only [wfWireValue, decide_eq_true_eq] at hwf
    simp [wireTypeOf, encodeWireValue, readPayload,
      readFixed_encodeFixed 4 n hwf rest]

theorem tag_div (n w : Nat) (hw : w < 8) : (n * 8 + w) / 8 = n := by omega

theorem tag_mod (n w : Nat) (hw : w < 8) : (n * 8 + w) % 8 = w := by omega

theorem encodeField_ne_nil (f : Nat × WireValue) : encodeField f ≠ [] := by
  unfold encodeField
  intro h
  exact encodeVarint_ne_nil _ (List.append_eq_nil.mp h).1

/-- Result of examining one tag/value pair at the head of the input. -/
inductive StepRes where
  | done : StepRes
  | err (off : Nat) : StepRes
  | fieldKnown (n : Nat) (v : WireValue) (consumed : Nat) : StepRes
  | fieldUnknown (raw : List Nat) (consumed : Nat) : StepRes
deriving DecidableEq

/-- Modelled from the spec: one step of the wire decoder.  Reads the tag
varint, the payload for its wire type, and classifies the field number
against the table.  `err` carries the offset of the failure relative to
the head of `data`. -/
def wireStep (tbl : WireTable) (data : List Nat) : StepRes :=
  if data = [] then .done
  else
    match readVarint data with
    | none => .err 0
    | some (tag, r1) =>
      match readPayload (tag % 8) r1 with
      | none => .err (data.length - r1.length)
      | some (v, r2) =>
        match tblLookup tbl (tag / 8) with
        | some k =>
          if kindOf v = k then .fieldKnown (tag / 8) v (data.length - r2.length)
          else .err 0
        | none =>
          .fieldUnknown (data.take (data.length - r2.length))
            (data.length - r2.length)

theorem wireStep_known_consumed {tbl : WireTable} {data : List Nat}
    {n : Nat} {v : WireValue} {c : Nat}
    (h : wireStep tbl data = .fieldKnown n v c) :
    0 < c ∧ c ≤ data.length := by
  unfold wireStep at h
  by_cases hd : data = []
  · rw [if_pos hd] at h; exact StepRes.noConfusion h
  rw [if_neg hd] at h
  rcases h1 : readVarint data with _ | ⟨tag, r1⟩ <;> simp only [h1] at h
  · exact StepRes.noConfusion h
  rcases h2 : readPayload (tag % 8) r1 with _ | ⟨v2, r2⟩ <;> simp only [h2] at h
  · exact StepRes.noConfusion h
  have hl1 := readVarint_length h1
  have hl2 := readPayload_length_le h2
  rcases h3 : tblLookup tbl (tag / 8) with _ | k <;> simp only [h3] at h
  · exact StepRes.noConfusion h
  by_cases hkind : kindOf v2 = k
  · rw [if_pos hkind] at h
    cases h
    omega
  · rw [if_neg hkind] at h
    exact StepRes.noConfusion h

theorem wireStep_unknown_consumed {tbl : WireTable} {data : List Nat}
    {raw : List Nat} {c : Nat}
    (h : wireStep tbl data = .fieldUnknown raw c) :
    0 < c ∧ c ≤ data.length := by
  unfold wireStep at h
  by_cases hd : data = []
  · rw [if_pos hd] at h; exact StepRes.noConfusion h
  rw [if_neg hd] at h
  rcases h1 : readVarint data with _ | ⟨tag, r1⟩ <;> simp only [h1] at h
  · exact StepRes.noConfusion h
  rcases h2 : readPayload (tag % 8) r1 with _ | ⟨v2, r2⟩ <;> simp only [h2] at h
  · exact StepRes.noConfusion h
  have hl1 := readVarint_length h1
  have hl2 := readPayload_length_le h2
  rcases h3 : tblLookup tbl (tag / 8) with _ | k <;> simp only [h3] at h
  · cases h
    omega
  by_cases hkind : kindOf v2 = k
  · rw [if_pos hkind] at h
    exact StepRes.noConfusion h
  · rw [if_neg hkind] at h
    exact StepRes.noConfusion h

/-- Fuel-bounded worker for the wire decoder loop (each step consumes at
least one byte, so fuel `data.length + 1` is never exhausted). -/
def wireDecodeLoopF (tbl : WireTable) :
    Nat → List Nat → Nat → WMessage → WMessage × Option ParseError
  | 0, _, _, m => (m, none)
  | fuel + 1, data, pos, m =>
    match wireStep tbl data with
    | .done => (m, none)
    | .err off => (m, some ⟨pos + off⟩)
    | .fieldKnown n v c =>
      wireDecodeLoopF tbl fuel (data.drop c) (pos + c) (setWField m n v)
    | .fieldUnknown raw c =>
      wireDecodeLoopF tbl fuel (data.drop c) (pos + c) (appendUnknown m raw)

/-- Modelled from the spec: the wire decoder loop.  `pos` is the byte
offset of `data`'s head within the full input; errors carry the byte
offset at which the failure was detected.  The partially decoded message
is returned alongside the error (spec: no partial instance mutation is
rolled back). -/
def wireDecodeLoop (tbl : WireTable) (data : List Nat) (pos : Nat)
    (m : WMessage) : WMessage × Option ParseError :=
  wireDecodeLoopF tbl (data.length + 1) data pos m

theorem wireDecodeLoopF_irrel (tbl : WireTable) :
    ∀ (f1 : Nat), ∀ (f2 : Nat) (data : List Nat) (pos : Nat) (m : WMessage),
      data.length < f1 → data.length < f2 →
      wireDecodeLoopF tbl f1 data pos m = wireDecodeLoopF tbl f2 data pos m := by
  intro f1
  induction f1 with
  | zero =>
    intro f2 data pos m h1 h2
    omega
  | succ f1 ih =>
    intro f2 data pos m h1 h2
    cases f2 with
    | zero => omega
    | succ f2 =>
      simp only [wireDecodeLoopF]
      cases hstep : wireStep tbl data with
      | done => rfl
      | err off => rfl
      | fieldKnown n v c =>
        have hc := wireStep_known_consumed hstep
        apply ih
        · simp only [List.length_drop]
          omega
        · simp only [List.length_drop]
          omega
      | fieldUnknown raw c =>
        have hc := wireStep_unknown_consumed hstep
        apply ih
        · simp only [List.length_drop]
          omega
        · simp only [List.length_drop]
          omega

/-- Decode a full payload into a fresh message. -/
def wireDecode (tbl : WireTable) (data : List Nat) :
    WMessage × Option ParseError :=
  wireDecodeLoop tbl data 0 ⟨[], []⟩

theorem wireDecodeLoop_eq_done {tbl : WireTable} {data : List Nat}
    (pos : Nat) (m : WMessage) (h : wireStep tbl data = .done) :
    wireDecodeLoop tbl data pos m = (m, none) := by
  unfold wireDecodeLoop
  simp only [wireDecodeLoopF, h]

theorem wireDecodeLoop_eq_err {tbl : WireTable} {data : List Nat} {off : Nat}
    (pos : Nat) (m : WMessage) (h : wireStep tbl data = .err off) :
    wireDecodeLoop tbl data pos m = (m, some ⟨pos + off⟩) := by
  unfold wireDecodeLoop
  simp only [wireDecodeLoopF, h]

theorem wireDecodeLoop_eq_known {tbl : WireTable} {data : List Nat}
    {n : Nat} {v : WireValue} {c : Nat} (pos : Nat) (m : WMessage)
    (h : wireStep tbl data = .fieldKnown n v c) :
    wireDecodeLoop tbl data pos m =
      wireDecodeLoop tbl (data.drop c) (pos + c) (setWField m n v) := by
  have hc := wireStep_known_consumed h
  have hL : wireDecodeLoopF tbl (data.length + 1) data pos m =
      wireDecodeLoopF tbl data.length (data.drop c) (pos + c)
        (setWField m n v) := by
    simp only [wireDecodeLoopF, h]
  unfold wireDecodeLoop
  rw [hL]
  apply wireDecodeLoopF_irrel
  · simp only [List.length_drop]
    omega
  · simp only [List.length_drop]
    omega

theorem wireDecodeLoop_eq_unknown {tbl : WireTable} {data : List Nat}
    {raw : List Nat} {c : Nat} (pos : Nat) (m : WMessage)
    (h : wireStep tbl data = .fieldUnknown raw c) :
    wireDecodeLoop tbl data pos m =
      wireDecodeLoop tbl (data.drop c) (pos + c) (appendUnknown m raw) := by
  have hc := wireStep_unknown_consumed h
  have hL : wireDecodeLoopF tbl (data.length + 1) data pos m =
      wireDecodeLoopF tbl data.length (data.drop c) (pos + c)
        (appendUnknown m raw) := by
    simp only [wireDecodeLoopF, h]
  unfold wireDecodeLoop
  rw [hL]
  apply wireDecodeLoopF_irrel
  · simp only [List.length_drop]
    omega
  · simp only [List.length_drop]
    omega

/-- Examining an encoded field whose number the table knows (matching wire
type) classifies it as a known field consuming exactly its encoding. -/
theorem wireStep_encodeField_known (tbl : WireTable) (f : Nat × WireValue)
    (rest : List Nat) (hwf : wfWireValue f.2 = true)
    (hk : tblLookup tbl f.1 = some (kindOf f.2)) :
    wireStep tbl (encodeField f ++ rest) =
      .fieldKnown f.1 f.2 (encodeField f).length := by
  have hne : encodeField f ++ rest ≠ [] := by
    intro h
    exact encodeField_ne_nil f (List.append_eq_nil.mp h).1
  have htag : readVarint (encodeField f ++ rest) =
      some (f.1 * 8 + wireTypeOf f.2, encodeWireValue f.2 ++ rest) := by
    unfold encodeField
    rw [List.append_assoc]
    exact readVarint_encodeVarint _ _
  have hmod := tag_mod f.1 (wireTypeOf f.2) (wireTypeOf_lt f.2)
  have hdiv := tag_div f.1 (wireTypeOf f.2) (wireTypeOf_lt f.2)
  have hlen : (encodeField f ++ rest).length - rest.length =
      (encodeField f).length := by
    simp [List.length_append]
  unfold wireStep
  rw [if_neg hne, htag]
  simp only [hmod, hdiv, readPayload_encodeWireValue f.2 rest hwf, hk, hlen,
    if_true, eq_self_iff_true]

/-- Examining an encoded field whose number the table does not know
classifies it as an unknown field carrying its raw bytes verbatim. -/
theorem wireStep_encodeField_unknown (tbl : WireTable) (f : Nat × WireValue)
    (rest : List Nat) (hwf : wfWireValue f.2 = true)
    (hk : tblLookup tbl f.1 = none) :
    wireStep tbl (encodeField f ++ rest) =
      .fieldUnknown (encodeField f) (encodeField f).length := by
  have hne : encodeField f ++ rest ≠ [] := by
    intro h
    exact encodeField_ne_nil f (List.append_eq_nil.mp h).1
  have htag : readVarint (encodeField f ++ rest) =
      some (f.1 * 8 + wireTypeOf f.2, encodeWireValue f.2 ++ rest) := by
    unfold encodeField
    rw [List.append_assoc]
    exact readVarint_encodeVarint _ _
  have hmod := tag_mod f.1 (wireTypeOf f.2) (wireTypeOf_lt f.2)
  have hdiv := tag_div f.1 (wireTypeOf f.2) (wireTypeOf_lt f.2)
  have hlen : (encodeField f ++ rest).length - rest.length =
      (encodeField f).length := by
    simp [List.length_append]
  have htake : (encodeField f ++ rest).take (encodeField f).length =
      encodeField f := List.take_left _ _
  unfold wireStep
  rw [if_neg hne, htag]
  simp only [hmod, hdiv, readPayload_encodeWireValue f.2 rest hwf, hk, hlen,
    htake]

/-- A run of known, type-correct encoded fields decodes to the
corresponding sequence of `set` operations. -/
theorem wireDecodeLoop_encodeFields_known (tbl : WireTable)
    (fs : List (Nat × WireValue)) :
    ∀ (tail : List Nat) (pos : Nat) (m : WMessage),
      (∀ f ∈ fs, wfWireValue f.2 = true ∧
        tblLookup tbl f.1 = some (kindOf f.2)) →
      wireDecodeLoop tbl (encodeFields fs ++ tail) pos m =
        wireDecodeLoop tbl tail (pos + (encodeFields fs).length)
          (fs.foldl (fun acc f => setWField acc f.1 f.2) m) := by
  induction fs with
  | nil =>
    intro tail pos m h
    simp [encodeFields]
  | cons f tl ih =>
    intro tail pos m h
    have hf := h f (List.mem_cons_self f tl)
    have hstep := wireStep_encodeField_known tbl f (encodeFields tl ++ tail)
      hf.1 hf.2
    have heq : encodeFields (f :: tl) ++ tail =
        encodeField f ++ (encodeFields tl ++ tail) := by
      simp [encodeFields, List.flatten_cons, List.append_assoc]
    have hlen2 : (encodeFields (f :: tl)).length =
        (encodeField f).length + (encodeFields tl).length := by
      simp [encodeFields, List.flatten_cons]
    rw [heq, wireDecodeLoop_eq_known pos m hstep, List.drop_left,
      ih tail _ _ (fun g hg => h g (List.mem_cons_of_mem f hg))]
    simp only [List.foldl_cons, hlen2, Nat.add_assoc]

/-- A run of encoded fields with numbers foreign to the table is appended
verbatim to the unrecognized span. -/
theorem wireDecodeLoop_encodeFields_unknown (tbl : WireTable)
    (fs : List (Nat × WireValue)) :
    ∀ (pos : Nat) (m : WMessage),
      (∀ f ∈ fs, wfWireValue f.2 = true ∧ tblLookup tbl f.1 = none) →
      wireDecodeLoop tbl (encodeFields fs) pos m =
        (appendUnknown m (encodeFields fs), none) := by
  induction fs with
  | nil =>
    intro pos m h
    have hstep : wireStep tbl (encodeFields []) = .done := by
      simp [encodeFields, wireStep]
    rw [wireDecodeLoop_eq_done pos m hstep]
    simp [appendUnknown, encodeFields]
  | cons f tl ih =>
    intro pos m h
    have hf := h f (List.mem_cons_self f tl)
    have hstep := wireStep_encodeField_unknown tbl f (encodeFields tl)
      hf.1 hf.2
    have heq : encodeFields (f :: tl) =
        encodeField f ++ encodeFields tl := by
      simp [encodeFields, List.flatten_cons]
    rw [heq, wireDecodeLoop_eq_unknown pos m hstep, List.drop_left,
      ih _ _ (fun g hg => h g (List.mem_cons_of_mem f hg))]
    simp [appendUnknown, List.append_assoc]

theorem find?_append_none {α : Type} (p : α → Bool) (l1 l2 : List α)
    (h : l1.find? p = none) : (l1 ++ l2).find? p = l2.find? p := by
  induction l1 with
  | nil => rfl
  | cons a tl ih =>
    cases hpa : p a with
    | true =>
      rw [List.find?_cons_of_pos _ hpa] at h
      cases h
    | false =>
      have hpa2 : ¬ p a = true := by rw [hpa]; simp
      rw [List.find?_cons_of_neg _ hpa2] at h
      rw [List.cons_append, List.find?_cons_of_neg _ hpa2]
      exact ih h

/-- Replaying decoded writes of pairwise-distinct fresh field numbers
reconstructs the field list. -/
theorem foldl_setWField (fs : List (Nat × WireValue)) :
    ∀ (m : WMessage),
      (fs.map Prod.fst).Nodup →
      (∀ f ∈ fs, m.fields.find? (fun e => e.1 = f.1) = none) →
      fs.foldl (fun acc f => setWField acc f.1 f.2) m =
        { m with fields := m.fields ++ fs } := by
  induction fs with
  | nil =>
    intro m _ _
    simp
  | cons f tl ih =>
    intro m hnd hdis
    have hnone := hdis f (List.mem_cons_self f tl)
    have hstep : setWField m f.1 f.2 =
        { m with fields := m.fields ++ [(f.1, f.2)] } := by
      unfold setWField
      rw [hnone]
      simp
    have hmap : ((f :: tl).map Prod.fst) = f.1 :: tl.map Prod.fst := rfl
    rw [hmap, List.nodup_cons] at hnd
    have hnd2 : (tl.map Prod.fst).Nodup := hnd.2
    have hdis2 : ∀ g ∈ tl,
        ({ m with fields := m.fields ++ [(f.1, f.2)] } :
          WMessage).fields.find? (fun e => e.1 = g.1) = none := by
      intro g hg
      have hne : (f.1 = g.1) = False := by
        simp only [eq_iff_iff, iff_false]
        intro hfg
        exact hnd.1 (hfg ▸ List.mem_map.mpr ⟨g, hg, rfl⟩)
      rw [find?_append_none _ _ _ (hdis g (List.mem_cons_of_mem f hg))]
      simp [hne]
    rw [List.foldl_cons]
    rw [hstep]
    rw [ih _ hnd2 hdis2]
    rw [List.append_assoc]
    rfl

/-- Full wire round trip: encoding a message consistent with the table and
decoding into a fresh message reproduces it exactly. -/
theorem wireDecode_wireEncode (tbl : WireTable) (msg : WMessage)
    (ufs : List (Nat × WireValue))
    (hsorted : List.Pairwise (fun a b => a.1 < b.1) msg.fields)
    (hknown : ∀ f ∈ msg.fields, wfWireValue f.2 = true ∧
      tblLookup tbl f.1 = some (kindOf f.2))
    (hunk : ∀ f ∈ ufs, wfWireValue f.2 = true ∧ tblLookup tbl f.1 = none)
    (hspan : msg.unknown = encodeFields ufs) :
    wireDecode tbl (wireEncode msg) = (msg, none) := by
  obtain ⟨fs, u⟩ := msg
  simp only at hsorted hknown hspan
  have hnd : (fs.map Prod.fst).Nodup := by
    unfold List.Nodup
    rw [List.pairwise_map]
    exact hsorted.imp (fun h => Nat.ne_of_lt h)
  unfold wireDecode wireEncode
  simp only [hspan]
  rw [wireDecodeLoop_encodeFields_known tbl fs (encodeFields ufs) 0
    ⟨[], []⟩ hknown]
  rw [foldl_setWField fs ⟨[], []⟩ hnd (fun f hf => rfl)]
  rw [wireDecodeLoop_encodeFields_unknown tbl ufs _ _ hunk]
  simp [appendUnknown]

/-- Decoding a payload whose final field declares a length-delimited size
larger than the remaining bytes fails with a `ParseError` at the payload's
offset and retains exactly the fields decoded before the failing tag. -/
theorem wireDecode_truncated_ld (tbl : WireTable)
    (good : List (Nat × WireValue)) (fnum L : Nat) (short : List Nat)
    (hnd : (good.map Prod.fst).Nodup)
    (hknown : ∀ f ∈ good, wfWireValue f.2 = true ∧
      tblLookup tbl f.1 = some (kindOf f.2))
    (hshort : short.length < L) :
    wireDecode tbl (encodeFields good ++
        (encodeVarint (fnum * 8 + 2) ++ (encodeVarint L ++ short))) =
      ({ fields := good, unknown := [] },
        some ⟨(encodeFields good).length +
          (encodeVarint (fnum * 8 + 2)).length⟩) := by
  unfold wireDecode
  rw [wireDecodeLoop_encodeFields_known tbl good _ 0 ⟨[], []⟩ hknown]
  rw [foldl_setWField good ⟨[], []⟩ hnd (fun f hf => rfl)]
  have hne : encodeVarint (fnum * 8 + 2) ++ (encodeVarint L ++ short) ≠ [] := by
    intro h
    exact encodeVarint_ne_nil _ (List.append_eq_nil.mp h).1
  have hpay : readPayload ((fnum * 8 + 2) % 8) (encodeVarint L ++ short) =
      none := by
    rw [tag_mod fnum 2 (by norm_num)]
    unfold readPayload
    norm_num
    simp only [readVarint_encodeVarint]
    rw [if_neg (by omega)]
  have hstep : wireStep tbl
      (encodeVarint (fnum * 8 + 2) ++ (encodeVarint L ++ short)) =
      .err ((encodeVarint (fnum * 8 + 2)).length) := by
    unfold wireStep
    rw [if_neg hne]
    simp only [readVarint_encodeVarint, hpay]
    simp [List.length_append]
  rw [wireDecodeLoop_eq_err _ _ hstep]
  simp

/-! ## Reflective field access (spec 4.4; upb/upb/reflection/message.h)

The corpus has only the header declarations of the accessors
(`upb_Message_HasFieldByDef`, `upb_Message_GetFieldByDef`,
`upb_Message_SetFieldByDef`, `upb_Message_ClearFieldByDef`,
`upb_Message_WhichOneof`, `upb_Message_Next`,
`upb_Message_DiscardUnknown`); their bodies are modelled from the spec.
The untyped instance region addressed by offsets is abstracted as
field-number-keyed storage plus explicit presence bits and oneof case
slots (the case slot's discriminant is the active member's field
number). -/

/-- Storage class of a field as seen by the reflective accessors. -/
inductive RKind where
  | scalar : RKind
  | subMsg : RKind
  | repeatedField : RKind
  | mapField : RKind
deriving DecidableEq

/-- A reflective value.  `refV` is an arena-owned indirect object handle
(submessage/array/map); `absentV` is the empty/absent sentinel returned
for unset indirect fields without allocating. -/
inductive RValue where
  | intV (v : Int) : RValue
  | boolV (b : Bool) : RValue
  | bytesV (s : List Nat) : RValue
  | refV (handle : Nat) : RValue
  | absentV : RValue
deriving DecidableEq

/-- Modelled from the spec: a Field-Def as used by the accessors — number,
storage class, declared default, resolved presence classification. -/
structure FieldDefR where
  number : Nat
  kind : RKind
  defaultV : RValue
  presence : PresenceKind
deriving DecidableEq

/-- First-match association lookup (the offset-indexed read). -/
def alookup {α : Type} (l : List (Nat × α)) (n : Nat) : Option α :=
  (l.find? (fun e => e.1 = n)).map (fun e => e.2)

/-- Association write: overwrite in place if the key exists, else append. -/
def aset {α : Type} (l : List (Nat × α)) (n : Nat) (v : α) : List (Nat × α) :=
  if (l.find? (fun e => e.1 = n)).isSome then
    l.map (fun e => if e.1 = n then (n, v) else e)
  else l ++ [(n, v)]

/-- Modelled from the spec: a Generic Message instance — field-number keyed
storage, presence bits, oneof case slots (slot index to active member's
field number), extension storage, and the unrecognized-byte span. -/
structure RMessage where
  vals : List (Nat × RValue)
  hasbits : List Nat
  caseSlots : List (Nat × Nat)
  exts : List (Nat × RValue)
  unknown : List Nat
deriving DecidableEq

/-- Whether this presence class tracks explicit presence. -/
def hasPresenceKind : PresenceKind → Bool
  | .always => false
  | .hasbit _ => true
  | .inOneof _ _ => true

/-- Modelled from the spec: `upb_Message_HasFieldByDef` — reads the
presence bit, or compares the oneof case slot's discriminant to the
field's case tag. -/
def upb_Message_HasFieldByDef (m : RMessage) (f : FieldDefR) : Bool :=
  match f.presence with
  | .always => (alookup m.vals f.number).isSome
  | .hasbit i => decide (i ∈ m.hasbits)
  | .inOneof s t => decide (alookup m.caseSlots s = some t)

/-- The value `get` reports for a field with no stored value: the declared
default for scalars, the empty/absent sentinel for indirect fields. -/
def defaultOrSentinel (f : FieldDefR) : RValue :=
  match f.kind with
  | .scalar => f.defaultV
  | _ => .absentV

/-- Modelled from the spec: `upb_Message_GetFieldByDef` — reads the typed
value at the field's storage; absent optional scalars yield the declared
default, unset submessage/repeated/map fields yield the absent sentinel.
It takes no arena and performs no allocation. -/
def upb_Message_GetFieldByDef (m : RMessage) (f : FieldDefR) : RValue :=
  if hasPresenceKind f.presence && !(upb_Message_HasFieldByDef m f) then
    defaultOrSentinel f
  else
    match alookup m.vals f.number with
    | some v => v
    | none => defaultOrSentinel f

/-- Modelled from the spec: `upb_Message_SetFieldByDef` — writes the value,
marks the presence bit, and for a oneof member sets the case slot's
discriminant to this field's tag (clearing any previously active
alternative, whose storage the arena reclaims later). -/
def upb_Message_SetFieldByDef (m : RMessage) (f : FieldDefR) (v : RValue) :
    RMessage :=
  let m1 := { m with vals := aset m.vals f.number v }
  match f.presence with
  | .always => m1
  | .hasbit i =>
    { m1 with hasbits := if i ∈ m1.hasbits then m1.hasbits else m1.hasbits ++ [i] }
  | .inOneof s t => { m1 with caseSlots := aset m1.caseSlots s t }

/-- Modelled from the spec: `upb_Message_ClearFieldByDef` — unmarks
presence / resets the oneof discriminant to none and drops the stored
value; it does not free the formerly held arena storage. -/
def upb_Message_ClearFieldByDef (m : RMessage) (f : FieldDefR) : RMessage :=
  { m with
    vals := m.vals.filter (fun e => decide (e.1 ≠ f.number))
    hasbits :=
      match f.presence with
      | .hasbit i => m.hasbits.filter (fun j => decide (j ≠ i))
      | _ => m.hasbits
    caseSlots :=
      match f.presence with
      | .inOneof s t =>
        m.caseSlots.filter (fun e => !(decide (e.1 = s) && decide (e.2 = t)))
      | _ => m.caseSlots }

/-- Modelled from the spec: a Oneof-Def — its case slot and member field
defs. -/
structure OneofDefR where
  slot : Nat
  fields : List FieldDefR
deriving DecidableEq

/-- Modelled from the spec and the header contract: `upb_Message_WhichOneof`
returns the field that is set in the oneof, or none (NULL) if none are
set — it reads the case slot's discriminant and finds the member with
that field number. -/
def upb_Message_WhichOneof (m : RMessage) (o : OneofDefR) : Option FieldDefR :=
  match alookup m.caseSlots o.slot with
  | none => none
  | some t => o.fields.find? (fun f => f.number = t)

/-- A well-formed oneof def: every member's presence points at this
oneof's slot with the member's own number as case tag, and member numbers
are distinct. -/
def wfOneof (o : OneofDefR) : Bool :=
  o.fields.all (fun f => decide (f.presence = .inOneof o.slot f.number)) &&
    decide ((o.fields.map (fun f => f.number)).Nodup)

/-- Modelled from the spec: `upb_Message_DiscardUnknown` — drops the
unrecognized-byte span, respecting the recursion depth bound (returns
false when the bound is exhausted). -/
def upb_Message_DiscardUnknown (m : RMessage) (maxdepth : Nat) :
    Bool × RMessage :=
  if maxdepth = 0 then (false, m)
  else (true, { m with unknown := [] })

/-- Modelled from the spec: a Message-Def as needed by iteration. -/
structure MessageDefR where
  fieldDefs : List FieldDefR
deriving DecidableEq

/-- Whether the iterator considers a field present. -/
def presentInMessage (m : RMessage) (f : FieldDefR) : Bool :=
  if hasPresenceKind f.presence then upb_Message_HasFieldByDef m f
  else (alookup m.vals f.number).isSome

/-- Modelled from the spec and the header contract of `upb_Message_Next`:
the full sequence the iterator yields — the present base fields, then,
only if an extension pool is supplied, the pool's extensions filtered to
those actually stored in the message (mismatching ones are skipped). -/
def upb_Message_Next (m : RMessage) (md : MessageDefR)
    (extPool : Option (List FieldDefR)) : List (FieldDefR × RValue) :=
  (md.fieldDefs.filter (presentInMessage m)).map
    (fun f => (f, upb_Message_GetFieldByDef m f)) ++
  (match extPool with
   | none => []
   | some ps =>
     ps.filterMap (fun f => (alookup m.exts f.number).map (fun v => (f, v))))

theorem filter_idem {α : Type} (p : α → Bool) (l : List α) :
    (l.filter p).filter p = l.filter p := by
  induction l with
  | nil => rfl
  | cons a tl ih =>
    cases hpa : p a with
    | true => simp [List.filter_cons, hpa, ih]
    | false => simp [List.filter_cons, hpa, ih]

theorem alookup_aset_self {α : Type} (l : List (Nat × α)) (n : Nat) (v : α) :
    alookup (aset l n v) n = some v := by
  induction l with
  | nil =>
    simp [aset, alookup, List.find?]
  | cons e tl ih =>
    by_cases he : e.1 = n
    · have hfind : (e :: tl).find? (fun x => decide (x.1 = n)) = some e :=
        List.find?_cons_of_pos _ (by simp [he])
      unfold aset
      rw [hfind]
      simp only [Option.isSome_some, if_true]
      rw [List.map_cons, if_pos he]
      unfold alookup
      rw [List.find?_cons_of_pos _ (by simp)]
      rfl
    · have hfind : (e :: tl).find? (fun x => decide (x.1 = n)) =
          tl.find? (fun x => decide (x.1 = n)) :=
        List.find?_cons_of_neg _ (by simp [he])
      have hskip : ∀ (l2 : List (Nat × α)),
          alookup (e :: l2) n = alookup l2 n := by
        intro l2
        unfold alookup
        rw [List.find?_cons_of_neg _ (by simp [he])]
      unfold aset
      rw [hfind]
      unfold aset at ih
      cases hs : (tl.find? (fun x => decide (x.1 = n))).isSome with
      | true =>
        rw [if_pos hs] at ih
        rw [if_pos rfl, List.map_cons, if_neg he, hskip]
        exact ih
      | false =>
        have hneg : ¬ ((tl.find? (fun x => decide (x.1 = n))).isSome = true) := by
          rw [hs]
          simp
        rw [if_neg hneg] at ih
        rw [if_neg (by simp), List.cons_append, hskip]
        exact ih

theorem aset_keys_nodup {α : Type} (l : List (Nat × α)) (n : Nat) (v : α)
    (hnd : (l.map Prod.fst).Nodup) :
    ((aset l n v).map Prod.fst).Nodup := by
  unfold aset
  by_cases hs : (l.find? (fun x => decide (x.1 = n))).isSome = true
  · rw [if_pos hs]
    have hmap : (l.map (fun e => if e.1 = n then (n, v) else e)).map Prod.fst =
        l.map Prod.fst := by
      rw [List.map_map]
      apply List.map_congr_left
      intro e he
      by_cases h : e.1 = n
      · simp [h]
      · simp [h]
    rw [hmap]
    exact hnd
  · rw [if_neg hs]
    have hnone : l.find? (fun x => decide (x.1 = n)) = none := by
      cases hf : l.find? (fun x => decide (x.1 = n))
      · rfl
      · rw [hf] at hs; simp at hs
    have hnotin : n ∉ l.map Prod.fst := by
      intro hin
      obtain ⟨e, he, hfst⟩ := List.mem_map.mp hin
      have := List.find?_eq_none.mp hnone e he
      simp [hfst] at this
    rw [List.map_append]
    rw [List.nodup_append]
    refine ⟨hnd, by simp, ?_⟩
    intro a ha hb
    simp at hb
    rw [hb] at ha
    exact hnotin ha

theorem alookup_some_mem {α : Type} {l : List (Nat × α)} {s : Nat} {t : α}
    (h : alookup l s = some t) : (s, t) ∈ l := by
  unfold alookup at h
  cases hf : l.find? (fun e => decide (e.1 = s)) with
  | none => rw [hf] at h; simp at h
  | some e =>
    rw [hf] at h
    simp only [Option.map_some', Option.some.injEq] at h
    have hmem := List.mem_of_find?_eq_some hf
    have hpred := List.find?_some hf
    simp only [decide_eq_true_eq] at hpred
    have heq : e = (s, t) := by
      cases e with
      | mk a b =>
        simp only at hpred h
        rw [hpred, h]
    rw [← heq]
    exact hmem

/-- With distinct keys, removing the pair found by lookup empties the key. -/
theorem alookup_clear_slot {l : List (Nat × Nat)} {s t : Nat}
    (hnd : (l.map Prod.fst).Nodup) (h : alookup l s = some t) :
    alookup (l.filter (fun e => !(decide (e.1 = s) && decide (e.2 = t)))) s =
      none := by
  have hmem : (s, t) ∈ l := alookup_some_mem h
  unfold alookup
  rw [Option.map_eq_none']
  rw [List.find?_eq_none]
  intro e he
  rw [List.mem_filter] at he
  rcases he with ⟨hel, hkeep⟩
  simp only [decide_eq_true_eq]
  intro hes
  have heq : e = (s, t) :=
    List.inj_on_of_nodup_map hnd hel hmem (by simp [hes])
  rw [heq] at hkeep
  simp at hkeep

/-- With distinct mapped keys, `find?` by an element's key returns it. -/
theorem find?_key_nodup {α : Type} [DecidableEq α] (key : α → Nat)
    (l : List α) (hnd : (l.map key).Nodup) (a : α) (ha : a ∈ l) :
    l.find? (fun x => key x = key a) = some a := by
  induction l with
  | nil => cases ha
  | cons b tl ih =>
    rw [List.map_cons, List.nodup_cons] at hnd
    rcases List.mem_cons.mp ha with rfl | hmem
    · exact List.find?_cons_of_pos _ (by simp)
    · have hne : key b ≠ key a := by
        intro he
        exact hnd.1 (he ▸ List.mem_map.mpr ⟨a, hmem, rfl⟩)
      rw [List.find?_cons_of_neg _ (by simp [hne])]
      exact ih hnd.2 hmem

theorem wfOneof_presence {o : OneofDefR} (hwf : wfOneof o = true)
    {f : FieldDefR} (hf : f ∈ o.fields) :
    f.presence = .inOneof o.slot f.number := by
  unfold wfOneof at hwf
  rw [Bool.and_eq_true] at hwf
  have := List.all_eq_true.mp hwf.1 f hf
  simpa using this

theorem wfOneof_nodup {o : OneofDefR} (hwf : wfOneof o = true) :
    (o.fields.map (fun g => g.number)).Nodup := by
  unfold wfOneof at hwf
  rw [Bool.and_eq_true] at hwf
  simpa using hwf.2

theorem has_oneof_member (m : RMessage) (f : FieldDefR) (s : Nat)
    (hp : f.presence = .inOneof s f.number) :
    upb_Message_HasFieldByDef m f =
      decide (alookup m.caseSlots s = some f.number) := by
  unfold upb_Message_HasFieldByDef
  rw [hp]

theorem whichOneof_iff (m : RMessage) (o : OneofDefR) (f : FieldDefR)
    (hwf : wfOneof o = true) (hf : f ∈ o.fields) :
    upb_Message_WhichOneof m o = some f ↔
      alookup m.caseSlots o.slot = some f.number := by
  have hnd := wfOneof_nodup hwf
  constructor
  · intro h
    unfold upb_Message_WhichOneof at h
    cases hc : alookup m.caseSlots o.slot with
    | none =>
      simp only [hc] at h
      exact Option.noConfusion h
    | some t =>
      simp only [hc] at h
      have hpred := List.find?_some h
      simp only [decide_eq_true_eq] at hpred
      rw [hpred]
  · intro h
    unfold upb_Message_WhichOneof
    rw [h]
    exact find?_key_nodup (fun g => g.number) o.fields hnd f hf

theorem whichOneof_has (m : RMessage) (o : OneofDefR) (f : FieldDefR)
    (hwf : wfOneof o = true) (hf : f ∈ o.fields) :
    (upb_Message_HasFieldByDef m f = true ↔
      upb_Message_WhichOneof m o = some f) := by
  rw [has_oneof_member m f o.slot (wfOneof_presence hwf hf)]
  rw [whichOneof_iff m o f hwf hf]
  simp

theorem set_member_caseSlots (m : RMessage) (f : FieldDefR) (v : RValue)
    (s : Nat) (hp : f.presence = .inOneof s f.number) :
    (upb_Message_SetFieldByDef m f v).caseSlots =
      aset m.caseSlots s f.number := by
  simp only [upb_Message_SetFieldByDef, hp]

theorem set_caseSlots_nodup (m : RMessage) (f : FieldDefR) (v : RValue)
    (hnd : (m.caseSlots.map Prod.fst).Nodup) :
    (((upb_Message_SetFieldByDef m f v).caseSlots).map Prod.fst).Nodup := by
  cases hp : f.presence with
  | always => simpa [upb_Message_SetFieldByDef, hp] using hnd
  | hasbit i => simpa [upb_Message_SetFieldByDef, hp] using hnd
  | inOneof s t =>
    simpa [upb_Message_SetFieldByDef, hp] using
      aset_keys_nodup m.caseSlots s t hnd

theorem foldl_set_caseSlots_nodup (ops : List (FieldDefR × RValue)) :
    ∀ (m : RMessage), (m.caseSlots.map Prod.fst).Nodup →
      ((ops.foldl (fun acc p => upb_Message_SetFieldByDef acc p.1 p.2)
        m).caseSlots.map Prod.fst).Nodup := by
  induction ops with
  | nil => intro m h; exact h
  | cons p tl ih =>
    intro m h
    exact ih _ (set_caseSlots_nodup m p.1 p.2 h)

theorem whichOneof_after_set (m : RMessage) (o : OneofDefR) (f : FieldDefR)
    (v : RValue) (hwf : wfOneof o = true) (hf : f ∈ o.fields) :
    upb_Message_WhichOneof (upb_Message_SetFieldByDef m f v) o = some f := by
  rw [whichOneof_iff _ o f hwf hf]
  rw [set_member_caseSlots m f v o.slot (wfOneof_presence hwf hf)]
  exact alookup_aset_self _ _ _

theorem whichOneof_after_clear (m : RMessage) (o : OneofDefR) (f : FieldDefR)
    (hwf : wfOneof o = true)
    (hnd : (m.caseSlots.map Prod.fst).Nodup)
    (h : upb_Message_WhichOneof m o = some f) :
    upb_Message_WhichOneof (upb_Message_ClearFieldByDef m f) o = none := by
  have hf : f ∈ o.fields := by
    unfold upb_Message_WhichOneof at h
    cases hc : alookup m.caseSlots o.slot with
    | none =>
      simp only [hc] at h
      exact Option.noConfusion h
    | some t =>
      simp only [hc] at h
      exact List.mem_of_find?_eq_some h
  have hp := wfOneof_presence hwf hf
  have hlk : alookup m.caseSlots o.slot = some f.number :=
    (whichOneof_iff m o f hwf hf).mp h
  have hcs : (upb_Message_ClearFieldByDef m f).caseSlots =
      m.caseSlots.filter
        (fun e => !(decide (e.1 = o.slot) && decide (e.2 = f.number))) := by
    simp only [upb_Message_ClearFieldByDef, hp]
  unfold upb_Message_WhichOneof
  rw [hcs, alookup_clear_slot hnd hlk]

theorem clear_idem (m : RMessage) (f : FieldDefR) :
    upb_Message_ClearFieldByDef (upb_Message_ClearFieldByDef m f) f =
      upb_Message_ClearFieldByDef m f := by
  cases hp : f.presence with
  | always => simp [upb_Message_ClearFieldByDef, hp, filter_idem]
  | hasbit i => simp [upb_Message_ClearFieldByDef, hp, filter_idem]
  | inOneof s t => simp [upb_Message_ClearFieldByDef, hp, filter_idem]

theorem discard_noop (m : RMessage) (d : Nat) (hu : m.unknown = [])
    (hd : d ≠ 0) : upb_Message_DiscardUnknown m d = (true, m) := by
  unfold upb_Message_DiscardUnknown
  rw [if_neg hd]
  obtain ⟨va, hb, cs, ex, u⟩ := m
  simp only at hu
  subst hu
  rfl

/-! ## Def Pool (spec 4.3)

Modelled from the spec: `add_file` registers the file's names (failing the
whole add on intra-file duplicates or collision with the pool), resolves
every cross-reference (own file first, then the pool), builds each
message's Mini-Table via the builder, and links every Field-Def to its
Mini-Table-Field; any failure leaves the pool in exactly its prior
state. -/

/-- Schema-description input for one field. -/
structure FieldProto where
  fname : String
  number : Nat
  ftype : Nat
  isOpt : Bool
  oneofIdx : Option Nat
  typeName : Option String
deriving DecidableEq

structure MsgProto where
  mname : String
  pfields : List FieldProto
deriving DecidableEq

structure FileProto where
  msgs : List MsgProto
deriving DecidableEq

/-- A resolved Field-Def: name, number, and link to its Mini-Table-Field. -/
structure FieldDefP where
  fname : String
  number : Nat
  mtField : Option MTField
deriving DecidableEq

structure MsgDefP where
  mname : String
  fdefs : List FieldDefP
  table : MiniTable
deriving DecidableEq

structure DefPool where
  pmsgs : List MsgDefP
deriving DecidableEq

inductive BuildError where
  | nameCollision : BuildError
  | unresolvedRef : BuildError
  | layoutFailed : BuildError
deriving DecidableEq

/-- Intra-file duplicate names/numbers, or collision with the pool. -/
def fileDupNames (pool : DefPool) (file : FileProto) : Bool :=
  !(decide ((file.msgs.map (fun mp => mp.mname)).Nodup)) ||
  file.msgs.any (fun mp =>
    !(decide ((mp.pfields.map (fun fp => fp.fname)).Nodup)) ||
    !(decide ((mp.pfields.map (fun fp => fp.number)).Nodup))) ||
  file.msgs.any (fun mp =>
    pool.pmsgs.any (fun md => decide (md.mname = mp.mname)))

/-- A type reference resolves against the file being added, then the pool. -/
def resolvesIn (pool : DefPool) (file : FileProto) (tn : String) : Bool :=
  file.msgs.any (fun mp => decide (mp.mname = tn)) ||
  pool.pmsgs.any (fun md => decide (md.mname = tn))

/-- Some field's cross-reference fails to resolve. -/
def unresolvedAny (pool : DefPool) (file : FileProto) : Bool :=
  file.msgs.any (fun mp => mp.pfields.any (fun fp =>
    match fp.typeName with
    | none => false
    | some tn => !(resolvesIn pool file tn)))

def fieldSpecOf (fp : FieldProto) : FieldSpec :=
  { number := fp.number, ftype := fp.ftype, isOpt := fp.isOpt,
    oneofIdx := fp.oneofIdx }

/-- Build one message's Mini-Table and link each Field-Def to its
Mini-Table-Field (found by field number in the finished table). -/
def buildMsgDef (mp : MsgProto) : Except LayoutError MsgDefP :=
  match buildMiniTable (mp.pfields.map fieldSpecOf) with
  | .error e => .error e
  | .ok T =>
    .ok { mname := mp.mname
          fdefs := mp.pfields.map (fun fp =>
            { fname := fp.fname, number := fp.number,
              mtField := T.fields.find? (fun g => g.number = fp.number) })
          table := T }

def buildAllMsgs : List MsgProto → Except LayoutError (List MsgDefP)
  | [] => .ok []
  | mp :: tl =>
    match buildMsgDef mp with
    | .error e => .error e
    | .ok md =>
      match buildAllMsgs tl with
      | .error e => .error e
      | .ok rest1 => .ok (md :: rest1)

theorem buildMiniTable_ok_eq {specs : List FieldSpec} {T : MiniTable}
    (h : buildMiniTable specs = .ok T) : T = buildTable specs := by
  unfold buildMiniTable at h
  split_ifs at h
  cases h
  rfl

theorem mkMTField_number (specs : List FieldSpec) (s : FieldSpec) :
    (mkMTField specs s).number = s.number := by
  rcases hid : s.oneofIdx with _ | id <;> simp [mkMTField, hid]

theorem mem_buildTable_numbers (specs : List FieldSpec) (n : Nat)
    (h : n ∈ specs.map (fun s => s.number)) :
    n ∈ (buildTable specs).fields.map (fun g => g.number) := by
  unfold buildTable
  simp only [List.map_map]
  have hcomp : ((fun g : MTField => g.number) ∘ mkMTField specs) =
      (fun s : FieldSpec => s.number) :=
    funext (fun s => mkMTField_number specs s)
  rw [hcomp]
  have hperm := (sortedOf_perm specs).map (fun s : FieldSpec => s.number)
  exact hperm.mem_iff.mpr h

theorem buildMsgDef_links {mp : MsgProto} {md : MsgDefP}
    (h : buildMsgDef mp = .ok md) :
    ∀ fd ∈ md.fdefs, fd.mtField.isSome = true := by
  unfold buildMsgDef at h
  cases hb : buildMiniTable (mp.pfields.map fieldSpecOf) with
  | error e =>
    simp only [hb] at h
    exact Except.noConfusion h
  | ok T =>
    simp only [hb] at h
    cases h
    intro fd hfd
    simp only [List.mem_map] at hfd
    obtain ⟨fp, hfp, rfl⟩ := hfd
    simp only
    have hTeq := buildMiniTable_ok_eq hb
    subst hTeq
    have hmemn : fp.number ∈
        (buildTable (mp.pfields.map fieldSpecOf)).fields.map
          (fun g => g.number) := by
      apply mem_buildTable_numbers
      simp only [List.map_map]
      exact List.mem_map.mpr ⟨fp, hfp, rfl⟩
    obtain ⟨g, hg, hgn⟩ := List.mem_map.mp hmemn
    rw [List.find?_isSome]
    exact ⟨g, hg, by simp [hgn]⟩

theorem buildAllMsgs_links :
    ∀ (mps : List MsgProto) (defs : List MsgDefP),
      buildAllMsgs mps = .ok defs →
      ∀ md ∈ defs, ∀ fd ∈ md.fdefs, fd.mtField.isSome = true := by
  intro mps
  induction mps with
  | nil =>
    intro defs h
    simp only [buildAllMsgs] at h
    cases h
    intro md hmd
    cases hmd
  | cons mp tl ih =>
    intro defs h
    simp only [buildAllMsgs] at h
    cases hb : buildMsgDef mp with
    | error e =>
      simp only [hb] at h
      exact Except.noConfusion h
    | ok md0 =>
      simp only [hb] at h
      cases hr : buildAllMsgs tl with
      | error e =>
        simp only [hr] at h
        exact Except.noConfusion h
      | ok rest1 =>
        simp only [hr] at h
        cases h
        intro md hmd
        rcases List.mem_cons.mp hmd with rfl | hmem
        · exact buildMsgDef_links hb
        · exact ih rest1 hr md hmem

/-- Modelled from the spec: `add_file` on a Def Pool.  All-or-nothing: on
any failure the returned pool is exactly the prior pool. -/
def upb_DefPool_AddFile (pool : DefPool) (file : FileProto) :
    DefPool × Option BuildError :=
  if fileDupNames pool file then (pool, some .nameCollision)
  else if unresolvedAny pool file then (pool, some .unresolvedRef)
  else
    match buildAllMsgs file.msgs with
    | .error _ => (pool, some .layoutFailed)
    | .ok defs => ({ pmsgs := pool.pmsgs ++ defs }, none)

deriving instance DecidableEq for Except

theorem decodeMiniTable_trailing (T : MiniTable) (extra : List Nat)
    (hne : extra ≠ []) :
    decodeMiniTable (encodeMiniTable T ++ extra) = .error .mk := by
  have hfs := readMTFields_encode T.fields extra
  simp only [encodeMiniTable, decodeMiniTable, List.append_assoc,
    readVarint_encodeVarint, hfs]
  have hie : extra.isEmpty = false := by
    cases extra
    · exact absurd rfl hne
    · rfl
  simp [hie]

theorem decodeMiniTableMem_agrees (f g : Nat → Nat) (len : Nat)
    (h : ∀ i, i < len → f i = g i) :
    decodeMiniTableMem f len = decodeMiniTableMem g len := by
  unfold decodeMiniTableMem
  have hfn : (fun i : Fin len => f i.val) = (fun i : Fin len => g i.val) :=
    funext (fun i => h i.val i.isLt)
  rw [hfn]

theorem defaultOrSentinel_absent (f : FieldDefR) (h : f.kind ≠ .scalar) :
    defaultOrSentinel f = .absentV := by
  cases hk : f.kind with
  | scalar => exact absurd hk h
  | subMsg => simp [defaultOrSentinel, hk]
  | repeatedField => simp [defaultOrSentinel, hk]
  | mapField => simp [defaultOrSentinel, hk]

/-! ## Concrete instances used by the witness theorems -/

def demoSpecs : List FieldSpec :=
  [⟨1, 1, true, none⟩, ⟨2, 1, false, none⟩, ⟨3, 5, false, some 0⟩,
   ⟨4, 1, false, some 0⟩]

def demoTbl : WireTable := ⟨[(1, .kVarint), (2, .kLd)]⟩

def demoUfs : List (Nat × WireValue) := [(5, .vint 9)]

def demoMsg : WMessage :=
  ⟨[(1, .vint 3), (2, .ld [7, 8])], encodeFields demoUfs⟩

def demoF1 : FieldDefR := ⟨1, .scalar, .intV 0, .inOneof 0 1⟩

def demoF2 : FieldDefR := ⟨2, .scalar, .intV 0, .inOneof 0 2⟩

def demoOneof : OneofDefR := ⟨0, [demoF1, demoF2]⟩

def demoM0 : RMessage := ⟨[], [], [], [], []⟩

def demoOps : List (FieldDefR × RValue) :=
  [(demoF1, .intV 5), (demoF2, .intV 6)]

def demoM1 : RMessage :=
  demoOps.foldl (fun acc p => upb_Message_SetFieldByDef acc p.1 p.2) demoM0

def demoOptF : FieldDefR := ⟨1, .scalar, .intV 42, .hasbit 0⟩

def demoExtMsg : RMessage := ⟨[], [], [], [(7, .intV 1)], []⟩

def demoExtF : FieldDefR := ⟨7, .scalar, .intV 0, .always⟩

def demoMD : MessageDefR := ⟨[]⟩

def emptyPool : DefPool := ⟨[]⟩

def demoFile : FileProto := ⟨[⟨"M", [⟨"a", 1, 1, true, none, none⟩]⟩]⟩

def demoDupFile : FileProto := ⟨[⟨"M", []⟩, ⟨"M", []⟩]⟩

def demoAllocator : CAllocator Nat :=
  ⟨fun h _ => h + 1, fun h _ size => (h, some size)⟩

/-! ## Claim theorems -/

/-- C1: for every Mini-Table `T` built by the Builder from a valid field
list, decoding the compact layout encoding of `T` yields `T` back exactly —
in particular with the same field count, the same field offsets, and the
same presence classification. -/
theorem claim_C1_minitable_roundtrip (specs : List FieldSpec) (T : MiniTable)
    (h : buildMiniTable specs = .ok T) :
    decodeMiniTable (encodeMiniTable T) = .ok T := by
  have hT := buildMiniTable_ok_eq h
  subst hT
  exact decodeMiniTable_encodeMiniTable _ (wfMiniTable_buildTable specs)

theorem claim_C1_witness :
    buildMiniTable demoSpecs = .ok (buildTable demoSpecs) ∧
    decodeMiniTable (encodeMiniTable (buildTable demoSpecs)) =
      .ok (buildTable demoSpecs) :=
  ⟨by decide, claim_C1_minitable_roundtrip demoSpecs (buildTable demoSpecs)
    (by decide)⟩

/-- C4: the compact-layout decoder is total (`Except`-valued), accepts only
structurally well-formed tables (presence/oneof indices inside the declared
bit/slot budget and every offset + field size inside the declared total
size), rejects trailing bytes with `MalformedLayout`, and its result
depends only on the bytes below the declared length — it never reads past
it, including on truncated or corrupted input. -/
theorem claim_C4_decode_safety :
    (∀ (l : List Nat) (T : MiniTable), decodeMiniTable l = .ok T →
      wfMiniTable T = true) ∧
    (∀ (T : MiniTable) (extra : List Nat), extra ≠ [] →
      decodeMiniTable (encodeMiniTable T ++ extra) = .error .mk) ∧
    (∀ (f g : Nat → Nat) (len : Nat), (∀ i, i < len → f i = g i) →
      decodeMiniTableMem f len = decodeMiniTableMem g len) :=
  ⟨fun _ _ h => decodeMiniTable_ok_wf h,
   fun T extra hne => decodeMiniTable_trailing T extra hne,
   fun f g len h => decodeMiniTableMem_agrees f g len h⟩

theorem claim_C4_witness :
    wfMiniTable (buildTable demoSpecs) = true ∧
    decodeMiniTable (encodeMiniTable (buildTable demoSpecs) ++ [0]) =
      .error .mk ∧
    decodeMiniTableMem (fun _ => 0) 0 = decodeMiniTableMem (fun i => i) 0 :=
  ⟨claim_C4_decode_safety.1 (encodeMiniTable (buildTable demoSpecs))
      (buildTable demoSpecs) (by decide),
   claim_C4_decode_safety.2.1 (buildTable demoSpecs) [0] (by decide),
   claim_C4_decode_safety.2.2 (fun _ => 0) (fun i => i) 0
      (fun i hi => absurd hi (Nat.not_lt_zero i))⟩

/-- C2: wire-encoding a Generic Message consistent with its Mini-Table and
wire-decoding the bytes into a fresh message yields a message
observationally equal under `get`/`has` for every field, with the
unrecognized-field byte span preserved verbatim. -/
theorem claim_C2_wire_roundtrip (tbl : WireTable) (msg : WMessage)
    (ufs : List (Nat × WireValue))
    (hsorted : List.Pairwise (fun a b => a.1 < b.1) msg.fields)
    (hknown : ∀ f ∈ msg.fields, wfWireValue f.2 = true ∧
      tblLookup tbl f.1 = some (kindOf f.2))
    (hunk : ∀ f ∈ ufs, wfWireValue f.2 = true ∧ tblLookup tbl f.1 = none)
    (hspan : msg.unknown = encodeFields ufs) :
    (wireDecode tbl (wireEncode msg)).2 = none ∧
    (∀ n, wGet (wireDecode tbl (wireEncode msg)).1 n = wGet msg n ∧
      wHas (wireDecode tbl (wireEncode msg)).1 n = wHas msg n) ∧
    (wireDecode tbl (wireEncode msg)).1.unknown = msg.unknown := by
  have h := wireDecode_wireEncode tbl msg ufs hsorted hknown hunk hspan
  rw [h]
  exact ⟨rfl, fun n => ⟨rfl, rfl⟩, rfl⟩

theorem claim_C2_witness :
    (wireDecode demoTbl (wireEncode demoMsg)).2 = none ∧
    (wireDecode demoTbl (wireEncode demoMsg)).1.unknown = demoMsg.unknown :=
  ⟨(claim_C2_wire_roundtrip demoTbl demoMsg demoUfs (by decide) (by decide)
      (by decide) (by decide)).1,
   (claim_C2_wire_roundtrip demoTbl demoMsg demoUfs (by decide) (by decide)
      (by decide) (by decide)).2.2⟩

/-- C5: wire-decoding a payload whose final field declares a
length-delimited size exceeding the remaining bytes fails with a
`ParseError` carrying the byte offset of the failure, and the fields
decoded before the failing tag are observationally unchanged by the
failure. -/
theorem claim_C5_truncated (tbl : WireTable)
    (good : List (Nat × WireValue)) (fnum L : Nat) (short : List Nat)
    (hnd : (good.map Prod.fst).Nodup)
    (hknown : ∀ f ∈ good, wfWireValue f.2 = true ∧
      tblLookup tbl f.1 = some (kindOf f.2))
    (hshort : short.length < L) :
    (wireDecode tbl (encodeFields good ++
        (encodeVarint (fnum * 8 + 2) ++ (encodeVarint L ++ short)))).2 =
      some ⟨(encodeFields good).length +
        (encodeVarint (fnum * 8 + 2)).length⟩ ∧
    (∀ n, wGet (wireDecode tbl (encodeFields good ++
        (encodeVarint (fnum * 8 + 2) ++ (encodeVarint L ++ short)))).1 n =
      wGet ⟨good, []⟩ n ∧
      wHas (wireDecode tbl (encodeFields good ++
        (encodeVarint (fnum * 8 + 2) ++ (encodeVarint L ++ short)))).1 n =
      wHas ⟨good, []⟩ n) := by
  have h := wireDecode_truncated_ld tbl good fnum L short hnd hknown hshort
  rw [h]
  exact ⟨rfl, fun n => ⟨rfl, rfl⟩⟩

theorem claim_C5_witness :
    (wireDecode demoTbl (encodeFields [(1, WireValue.vint 3)] ++
        (encodeVarint (2 * 8 + 2) ++ (encodeVarint 5 ++ [1, 2])))).2 =
      some ⟨(encodeFields [(1, WireValue.vint 3)]).length +
        (encodeVarint (2 * 8 + 2)).length⟩ :=
  (claim_C5_truncated demoTbl [(1, WireValue.vint 3)] 2 5 [1, 2]
    (by decide) (by decide) (by decide)).1

/-- C3: after any finite sequence of `set` calls on members of one oneof,
`has` returns true for at most one member; which-oneof returns exactly the
member that `has` reports set (and the member just set), and returns none
after clearing the active member. -/
theorem claim_C3_oneof_invariant (o : OneofDefR) (m0 : RMessage)
    (ops : List (FieldDefR × RValue))
    (hwf : wfOneof o = true)
    (hops : ∀ p ∈ ops, p.1 ∈ o.fields)
    (hnd0 : (m0.caseSlots.map Prod.fst).Nodup) :
    (∀ f ∈ o.fields, ∀ g ∈ o.fields,
      upb_Message_HasFieldByDef
        (ops.foldl (fun acc p => upb_Message_SetFieldByDef acc p.1 p.2) m0)
        f = true →
      upb_Message_HasFieldByDef
        (ops.foldl (fun acc p => upb_Message_SetFieldByDef acc p.1 p.2) m0)
        g = true → f = g) ∧
    (∀ f ∈ o.fields,
      (upb_Message_HasFieldByDef
        (ops.foldl (fun acc p => upb_Message_SetFieldByDef acc p.1 p.2) m0)
        f = true ↔
      upb_Message_WhichOneof
        (ops.foldl (fun acc p => upb_Message_SetFieldByDef acc p.1 p.2) m0)
        o = some f)) ∧
    (∀ f ∈ o.fields, ∀ v,
      upb_Message_WhichOneof (upb_Message_SetFieldByDef
        (ops.foldl (fun acc p => upb_Message_SetFieldByDef acc p.1 p.2) m0)
        f v) o = some f) ∧
    (∀ f, upb_Message_WhichOneof
        (ops.foldl (fun acc p => upb_Message_SetFieldByDef acc p.1 p.2) m0)
        o = some f →
      upb_Message_WhichOneof (upb_Message_ClearFieldByDef
        (ops.foldl (fun acc p => upb_Message_SetFieldByDef acc p.1 p.2) m0)
        f) o = none) := by
  refine ⟨?_, ?_, ?_, ?_⟩
  · intro f hf g hg h1 h2
    have e1 := (whichOneof_has _ o f hwf hf).mp h1
    have e2 := (whichOneof_has _ o g hwf hg).mp h2
    rw [e1] at e2
    exact Option.some.inj e2
  · intro f hf
    exact whichOneof_has _ o f hwf hf
  · intro f hf v
    exact whichOneof_after_set _ o f v hwf hf
  · intro f h
    exact whichOneof_after_clear _ o f hwf
      (foldl_set_caseSlots_nodup ops m0 hnd0) h

theorem claim_C3_witness :
    upb_Message_HasFieldByDef demoM1 demoF2 = true ↔
      upb_Message_WhichOneof demoM1 demoOneof = some demoF2 :=
  (claim_C3_oneof_invariant demoOneof demoM0 demoOps (by decide) (by decide)
    (by decide)).2.1 demoF2 (by decide)

/-- C7: clearing a field twice equals clearing it once (the second clear is
the identity on the message state, hence on every observation), and
discarding unknown data from a message with an empty unrecognized span
leaves the message unchanged (within the depth bound). -/
theorem claim_C7_idempotence :
    (∀ (m : RMessage) (f : FieldDefR),
      upb_Message_ClearFieldByDef (upb_Message_ClearFieldByDef m f) f =
        upb_Message_ClearFieldByDef m f) ∧
    (∀ (m : RMessage) (d : Nat), m.unknown = [] → d ≠ 0 →
      upb_Message_DiscardUnknown m d = (true, m)) :=
  ⟨clear_idem, discard_noop⟩

theorem claim_C7_witness :
    upb_Message_DiscardUnknown demoM0 1 = (true, demoM0) :=
  claim_C7_idempotence.2 demoM0 1 rfl (by decide)

/-- C8: `get` reads the stored typed value when the field is present;
an absent optional scalar yields the field's declared default; an unset
submessage/repeated/map field yields the empty/absent sentinel.  `get`
takes no arena and performs no allocation (it is a pure observation). -/
theorem claim_C8_get :
    (∀ (m : RMessage) (f : FieldDefR) (v : RValue),
      upb_Message_HasFieldByDef m f = true →
      alookup m.vals f.number = some v →
      upb_Message_GetFieldByDef m f = v) ∧
    (∀ (m : RMessage) (f : FieldDefR),
      hasPresenceKind f.presence = true →
      upb_Message_HasFieldByDef m f = false →
      f.kind = .scalar →
      upb_Message_GetFieldByDef m f = f.defaultV) ∧
    (∀ (m : RMessage) (f : FieldDefR),
      f.kind ≠ .scalar →
      alookup m.vals f.number = none →
      upb_Message_GetFieldByDef m f = .absentV) := by
  refine ⟨?_, ?_, ?_⟩
  · intro m f v h1 h2
    simp [upb_Message_GetFieldByDef, h1, h2]
  · intro m f h1 h2 h3
    simp [upb_Message_GetFieldByDef, h1, h2, defaultOrSentinel, h3]
  · intro m f h1 h2
    unfold upb_Message_GetFieldByDef
    split_ifs
    · exact defaultOrSentinel_absent f h1
    · rw [h2]
      exact defaultOrSentinel_absent f h1

theorem claim_C8_witness :
    upb_Message_GetFieldByDef demoM0 demoOptF = RValue.intV 42 :=
  claim_C8_get.2.1 demoM0 demoOptF (by decide) (by decide) (by decide)

/-- C10: with no extension pool the iterator yields exactly the present
base fields (never an extension); and every yielded (field, value) pair
corresponds to data actually present in the message — a present base field
with its value, or an extension actually stored in the message
(pool-supplied extensions that do not match stored data are skipped). -/
theorem claim_C10_next :
    (∀ (m : RMessage) (md : MessageDefR),
      upb_Message_Next m md none =
        (md.fieldDefs.filter (presentInMessage m)).map
          (fun f => (f, upb_Message_GetFieldByDef m f))) ∧
    (∀ (m : RMessage) (md : MessageDefR) (pool : Option (List FieldDefR)),
      ∀ p ∈ upb_Message_Next m md pool,
        (p.1 ∈ md.fieldDefs ∧ presentInMessage m p.1 = true ∧
          p.2 = upb_Message_GetFieldByDef m p.1) ∨
        alookup m.exts p.1.number = some p.2) := by
  constructor
  · intro m md
    simp [upb_Message_Next]
  · intro m md pool p hp
    unfold upb_Message_Next at hp
    rcases List.mem_append.mp hp with hbase | hext
    · left
      obtain ⟨f, hf, rfl⟩ := List.mem_map.mp hbase
      rw [List.mem_filter] at hf
      exact ⟨hf.1, hf.2, rfl⟩
    · right
      cases pool with
      | none => cases hext
      | some ps =>
        obtain ⟨a, ha, heq⟩ := List.mem_filterMap.mp hext
        cases hl : alookup m.exts a.number with
        | none => rw [hl] at heq; cases heq
        | some v =>
          rw [hl] at heq
          simp only [Option.map_some', Option.some.injEq] at heq
          rw [← heq]
          exact hl

theorem claim_C10_witness :
    ((demoExtF, RValue.intV 1).1 ∈ demoMD.fieldDefs ∧
      presentInMessage demoExtMsg (demoExtF, RValue.intV 1).1 = true ∧
      (demoExtF, RValue.intV 1).2 =
        upb_Message_GetFieldByDef demoExtMsg (demoExtF, RValue.intV 1).1) ∨
    alookup demoExtMsg.exts (demoExtF, RValue.intV 1).1.number =
      some (demoExtF, RValue.intV 1).2 :=
  claim_C10_next.2 demoExtMsg demoMD (some [demoExtF])
    (demoExtF, RValue.intV 1) (by decide)

/-- C6: `add_file` is all-or-nothing — on any failure (intra-file duplicate
name, pool name collision, unresolved cross-reference, or layout failure)
the pool is left in exactly its prior state; duplicate names or unresolved
references do fail the add; and on success every Field-Def of every added
message is linked to its Mini-Table-Field. -/
theorem claim_C6_addfile (pool : DefPool) (file : FileProto) :
    ((upb_DefPool_AddFile pool file).2.isSome = true →
      (upb_DefPool_AddFile pool file).1 = pool) ∧
    (fileDupNames pool file = true ∨ unresolvedAny pool file = true →
      (upb_DefPool_AddFile pool file).2.isSome = true) ∧
    ((upb_DefPool_AddFile pool file).2 = none →
      ∃ defs, buildAllMsgs file.msgs = .ok defs ∧
        (upb_DefPool_AddFile pool file).1.pmsgs = pool.pmsgs ++ defs ∧
        ∀ md ∈ defs, ∀ fd ∈ md.fdefs, fd.mtField.isSome = true) := by
  unfold upb_DefPool_AddFile
  by_cases h1 : fileDupNames pool file = true
  · rw [if_pos h1]
    exact ⟨fun _ => rfl, fun _ => rfl, fun h => by simp at h⟩
  · rw [if_neg h1]
    by_cases h2 : unresolvedAny pool file = true
    · rw [if_pos h2]
      exact ⟨fun _ => rfl, fun _ => rfl, fun h => by simp at h⟩
    · rw [if_neg h2]
      cases hb : buildAllMsgs file.msgs with
      | error e =>
        exact ⟨fun _ => rfl, fun _ => rfl, fun h => by simp at h⟩
      | ok defs =>
        refine ⟨fun hsome => ?_, fun hor => ?_, fun _ =>
          ⟨defs, rfl, rfl, buildAllMsgs_links file.msgs defs hb⟩⟩
        · simp at hsome
        · rcases hor with h | h
          · exact absurd h h1
          · exact absurd h h2

theorem claim_C6_witness :
    (upb_DefPool_AddFile emptyPool demoDupFile).1 = emptyPool :=
  (claim_C6_addfile emptyPool demoDupFile).1 (by decide)

/-- C9: `upb_global_allocfunc` (upb/mem/alloc.c) is total and case-splits
only on the requested size: size zero frees the pointer and returns NULL;
nonzero size delegates to realloc (returning NULL exactly when the system
allocator does); the `alloc` handle and `oldsize` arguments never influence
the result. -/
theorem claim_C9_allocfunc {H α : Type} (A : CAllocator H) :
    (∀ (h : H) (alloc : α) (ptr : Option Nat) (oldsize : Nat),
      upb_global_allocfunc A h alloc ptr oldsize 0 = (A.freeFn h ptr, none)) ∧
    (∀ (h : H) (alloc : α) (ptr : Option Nat) (oldsize size : Nat),
      size ≠ 0 →
      upb_global_allocfunc A h alloc ptr oldsize size =
        A.reallocFn h ptr size) ∧
    (∀ (h : H) (a1 a2 : α) (ptr : Option Nat) (o1 o2 size : Nat),
      upb_global_allocfunc A h a1 ptr o1 size =
        upb_global_allocfunc A h a2 ptr o2 size) := by
  refine ⟨?_, ?_, ?_⟩
  · intro h alloc ptr oldsize
    simp [upb_global_allocfunc]
  · intro h alloc ptr oldsize size hs
    simp [upb_global_allocfunc, hs]
  · intro h a1 a2 ptr o1 o2 size
    rfl

theorem claim_C9_witness :
    upb_global_allocfunc demoAllocator 0 (7 : Nat) (some 3) 5 4 =
      demoAllocator.reallocFn 0 (some 3) 4 :=
  (claim_C9_allocfunc demoAllocator).2.1 0 7 (some 3) 5 4 (by decide)

end Upb
